import Mathlib

/-!
Verification of the sevenz-rust2 core against its natural-language
specification.  Every definition below is a shallow embedding of a function
from the repository's source (file and symbol named in each doc comment);
machine integers are modelled as `Nat` with explicit `% 2^w` wherever the
source performs fixed-width arithmetic, byte slices are `List Nat`, and
fallible Rust code becomes `Except`/`Option` (with `Option.none` reserved for
panics such as out-of-bounds slicing or `copy_from_slice` length mismatches).
-/

namespace SevenZ

/-- Error type mirroring `crate::Error` (`src/error.rs` variants used by the
embedded functions): `other` for `Error::other(..)`, `PasswordRequired`,
`MaxMemLimited { max_kb, actaul_kb }` and `UnsupportedCompressionMethod`. -/
inductive SvError where
  | other (msg : String)
  | PasswordRequired
  | MaxMemLimited (max_kb : Nat) (actaul_kb : Nat)
  | UnsupportedCompressionMethod (msg : String)
  deriving DecidableEq, Repr

instance {ε α : Type} [DecidableEq ε] [DecidableEq α] : DecidableEq (Except ε α) :=
  fun a b =>
    match a, b with
    | .ok x, .ok y =>
      if h : x = y then .isTrue (by rw [h]) else .isFalse (by intro c; cases c; exact h rfl)
    | .error x, .error y =>
      if h : x = y then .isTrue (by rw [h]) else .isFalse (by intro c; cases c; exact h rfl)
    | .ok _, .error _ => .isFalse (by intro c; cases c)
    | .error _, .ok _ => .isFalse (by intro c; cases c)

/-- Little-endian byte rendering of `n` on `k` bytes, as produced by Rust's
`u32::to_le_bytes` / `u16::to_le_bytes` (value implicitly reduced mod 256 per
byte, i.e. the source value is already reduced mod `2^(8k)`). -/
def leBytes : Nat → Nat → List Nat
  | 0, _ => []
  | k + 1, n => n % 256 :: leBytes k (n / 256)

/-- Little-endian reassembly of a byte list, as in `u32::from_le_bytes` /
`u16::from_le_bytes` applied to the listed bytes. -/
def ofLeBytes : List Nat → Nat
  | [] => 0
  | b :: t => b % 256 + 256 * ofLeBytes t

theorem leBytes_length (k n : Nat) : (leBytes k n).length = k := by
  induction k generalizing n with
  | zero => rfl
  | succ k ih => simp [leBytes, ih]

theorem ofLeBytes_leBytes (k n : Nat) (h : n < 256 ^ k) :
    ofLeBytes (leBytes k n) = n := by
  induction k generalizing n with
  | zero =>
    simp [leBytes, ofLeBytes]
    omega
  | succ k ih =>
    simp only [leBytes, ofLeBytes]
    rw [ih (n / 256) (by
      have : 256 ^ (k + 1) = 256 * 256 ^ k := by ring
      omega)]
    omega

/-! ## LZMA2 dictionary size (claims C5 and C9)

`get_lzma2_dic_size` is translated from `src/src/decoder.rs:357-373`.  The
writer-side property byte `lzma2_prop_byte` is translated from the
`ID_LZMA2` arm of `get_options_as_properties` in `src/src/encoder.rs`. -/

/-- `get_lzma2_dic_size` from `src/src/decoder.rs`: the coder property list is
a byte list; the result is the `u32` dictionary size or an error. -/
def get_lzma2_dic_size (properties : List Nat) : Except SvError Nat :=
  match properties with
  | [] => .error (.other "LZMA2 properties too short")
  | b :: _ =>
    let dict_size_bits := 0xFF &&& b
    if dict_size_bits &&& 0xFFFFFFC0 ≠ 0 then
      .error (.other "Unsupported LZMA2 property bits")
    else if dict_size_bits > 40 then
      .error (.other "Dictionary larger than 4GiB maximum size")
    else if dict_size_bits = 40 then
      .ok 0xFFFFFFFF
    else
      .ok (((2 ||| (dict_size_bits &&& 0x1)) <<< (dict_size_bits / 2 + 11)) % 2 ^ 32)

/-- Bit length of `n`, with structural fuel so that the kernel can evaluate it
(`f` must be at least the actual bit length). -/
def bitlen_aux : Nat → Nat → Nat
  | 0, _ => 0
  | f + 1, n => if n = 0 then 0 else bitlen_aux f (n / 2) + 1

/-- `u32::leading_zeros` on the 32-bit value `n % 2^32`. -/
def u32_clz (n : Nat) : Nat := 32 - bitlen_aux 32 (n % 2 ^ 32)

/-- `u32::wrapping_sub`. -/
def wsub32 (a b : Nat) : Nat := (a % 2 ^ 32 + 2 ^ 32 - b % 2 ^ 32) % 2 ^ 32

/-- `u32` right shift with Rust's release-mode masking of the shift amount. -/
def shr32 (a b : Nat) : Nat := (a % 2 ^ 32) >>> (b % 32)

/-- The `ID_LZMA2` arm of `get_options_as_properties`
(`src/src/encoder.rs:483-494`): computes the single property byte from the
configured dictionary size. -/
def lzma2_prop_byte (dict_size : Nat) : Nat :=
  let d := dict_size % 2 ^ 32
  let lead := u32_clz d
  let second_bit := wsub32 (shr32 d (wsub32 30 lead)) 2
  ((wsub32 19 lead * 2 + second_bit) % 2 ^ 32) % 256

/-- C5: LZMA2 dictionary size decoding — fails on empty properties, fails when
`b & ~0x3F` is non-zero, fails when `b > 40`, yields `0xFFFFFFFF` at `b = 40`,
and otherwise yields `(2 | (b & 1)) << (b / 2 + 11)`. -/
theorem lzma2_dic_size_decode_spec (b : Nat) (rest : List Nat) (hb : b < 256) :
    (get_lzma2_dic_size [] = .error (.other "LZMA2 properties too short"))
    ∧ (b &&& 0xFFFFFFC0 ≠ 0 →
        get_lzma2_dic_size (b :: rest) = .error (.other "Unsupported LZMA2 property bits"))
    ∧ (b &&& 0xFFFFFFC0 = 0 → b > 40 →
        get_lzma2_dic_size (b :: rest) = .error (.other "Dictionary larger than 4GiB maximum size"))
    ∧ (b = 40 → get_lzma2_dic_size (b :: rest) = .ok 0xFFFFFFFF)
    ∧ (b < 40 →
        get_lzma2_dic_size (b :: rest) = .ok ((2 ||| (b &&& 1)) <<< (b / 2 + 11))) := by
  have hmask : 0xFF &&& b = b := by
    rw [Nat.land_comm]
    exact Nat.and_pow_two_sub_one_of_lt_two_pow (n := 8) (by omega)
  have hlow : ∀ c : Nat, c < 64 → c &&& 0xFFFFFFC0 = 0 := by decide
  have hsmall : ∀ c : Nat, c < 40 →
      ((2 ||| (c &&& 1)) <<< (c / 2 + 11)) % 2 ^ 32 = (2 ||| (c &&& 1)) <<< (c / 2 + 11) := by
    decide
  refine ⟨rfl, ?_, ?_, ?_, ?_⟩
  · intro h
    simp [get_lzma2_dic_size, hmask, h]
  · intro hz hgt
    simp [get_lzma2_dic_size, hmask, hz, hgt, Nat.ne_of_gt hgt]
  · rintro rfl
    rfl
  · intro hlt
    have h0 : b &&& 0xFFFFFFC0 = 0 := hlow b (by omega)
    simp only [get_lzma2_dic_size, hmask]
    rw [if_neg (by simp [h0]), if_neg (by omega), if_neg (by omega)]
    exact congrArg Except.ok (hsmall b hlt)

/-- Witness for `lzma2_dic_size_decode_spec` at `b = 3`. -/
theorem lzma2_dic_size_decode_spec_witness :
    get_lzma2_dic_size [3] = .ok ((2 ||| (3 &&& 1)) <<< (3 / 2 + 11)) :=
  (lzma2_dic_size_decode_spec 3 [] (by decide)).2.2.2.2 (by decide)

set_option maxRecDepth 40000 in
/-- C9: feeding the dictionary size decoded from a non-sentinel property byte
`b < 40` back into the writer-side LZMA2 property computation recovers `b`. -/
theorem lzma2_prop_roundtrip (b : Nat) (hb : b < 40) :
    get_lzma2_dic_size [b] = .ok ((2 ||| (b &&& 1)) <<< (b / 2 + 11))
    ∧ lzma2_prop_byte ((2 ||| (b &&& 1)) <<< (b / 2 + 11)) = b := by
  revert b
  decide

/-- Witness for `lzma2_prop_roundtrip` at `b = 5`. -/
theorem lzma2_prop_roundtrip_witness :
    get_lzma2_dic_size [5] = .ok ((2 ||| (5 &&& 1)) <<< (5 / 2 + 11))
    ∧ lzma2_prop_byte ((2 ||| (5 &&& 1)) <<< (5 / 2 + 11)) = 5 :=
  lzma2_prop_roundtrip 5 (by decide)

/-! ## Memory-limit enforcement (claim C6)

The `ID_LZMA2` arm of `add_decoder` (`src/src/decoder.rs:190-212`) and
`get_ppmd_order_memory_size` (`src/src/decoder.rs:315-355`).  The working-set
estimator `lzma2_get_memory_usage` and the `PPMD7_*` bounds live in the
external `lzma_rust2` / `ppmd_rust` crates, so they are parameters here. -/

/-- Recognizer for the `MaxMemLimited` error variant. -/
def SvError.isMemLimit : SvError → Bool
  | .MaxMemLimited _ _ => true
  | _ => false

/-- The `ID_LZMA2` arm of `add_decoder` up to (and including) its memory-limit
check; `mem_usage` stands for the external `lzma2_get_memory_usage`. -/
def add_decoder_lzma2 (mem_usage : Nat → Nat) (properties : List Nat)
    (max_mem_limit_kb : Nat) : Except SvError Unit :=
  match get_lzma2_dic_size properties with
  | .error e => .error e
  | .ok dic_size =>
    let mem_size := mem_usage dic_size
    if mem_size > max_mem_limit_kb then
      .error (.MaxMemLimited max_mem_limit_kb mem_size)
    else
      .ok ()

/-- `get_ppmd_order_memory_size` from `src/src/decoder.rs`; the four `PPMD7_*`
bounds of the external `ppmd_rust` crate are passed as parameters. -/
def get_ppmd_order_memory_size (minOrder maxOrder minMem maxMem : Nat)
    (properties : List Nat) (max_mem_limit_kb : Nat) : Except SvError (Nat × Nat) :=
  if properties.length < 5 then .error (.other "PPMD properties too short")
  else
    let order := properties.getD 0 0
    let memory_size := ofLeBytes ((properties.drop 1).take 4)
    if order < minOrder then .error (.other "PPMD order smaller than PPMD7_MIN_ORDER")
    else if order > maxOrder then .error (.other "PPMD order larger than PPMD7_MAX_ORDER")
    else if memory_size < minMem then
      .error (.other "PPMD memory size smaller than PPMD7_MIN_MEM_SIZE")
    else if memory_size > maxMem then
      .error (.other "PPMD memory size larger than PPMD7_MAX_MEM_SIZE")
    else if memory_size > max_mem_limit_kb then
      .error (.MaxMemLimited max_mem_limit_kb memory_size)
    else
      .ok (order, memory_size)

theorem get_lzma2_dic_size_error_other (props : List Nat) (e : SvError)
    (h : get_lzma2_dic_size props = .error e) : e.isMemLimit = false := by
  unfold get_lzma2_dic_size at h
  cases props with
  | nil => cases h; rfl
  | cons b rest =>
    dsimp only at h
    split_ifs at h <;> cases h <;> rfl

/-- C6: LZMA2 decoder construction yields a memory-limit error carrying the
cap and the estimated requirement exactly when the estimate exceeds the cap,
and never otherwise; PPMd likewise uses the declared memory size, with the
PPMd-range validations (external constants) made explicit. -/
theorem mem_limit_exact (mem_usage : Nat → Nat) (props : List Nat) (cap : Nat)
    (minO maxO minM maxM : Nat) :
    (∀ dic, get_lzma2_dic_size props = .ok dic →
       (mem_usage dic > cap →
          add_decoder_lzma2 mem_usage props cap = .error (.MaxMemLimited cap (mem_usage dic)))
       ∧ (mem_usage dic ≤ cap → add_decoder_lzma2 mem_usage props cap = .ok ()))
    ∧ (∀ e, add_decoder_lzma2 mem_usage props cap = .error e → e.isMemLimit = true →
         ∃ dic, get_lzma2_dic_size props = .ok dic
           ∧ e = .MaxMemLimited cap (mem_usage dic) ∧ mem_usage dic > cap)
    ∧ (∀ e o, get_ppmd_order_memory_size minO maxO minM maxM props cap = .error e →
         e.isMemLimit = true →
         o = ofLeBytes ((props.drop 1).take 4) →
         5 ≤ props.length ∧ e = .MaxMemLimited cap o ∧ o > cap)
    ∧ (5 ≤ props.length →
        minO ≤ props.getD 0 0 → props.getD 0 0 ≤ maxO →
        minM ≤ ofLeBytes ((props.drop 1).take 4) →
        ofLeBytes ((props.drop 1).take 4) ≤ maxM →
        cap < ofLeBytes ((props.drop 1).take 4) →
        get_ppmd_order_memory_size minO maxO minM maxM props cap
          = .error (.MaxMemLimited cap (ofLeBytes ((props.drop 1).take 4)))) := by
  refine ⟨?_, ?_, ?_, ?_⟩
  · intro dic hdic
    constructor <;> intro hcap <;> simp [add_decoder_lzma2, hdic] <;> omega
  · intro e he hmem
    unfold add_decoder_lzma2 at he
    cases hd : get_lzma2_dic_size props with
    | error e2 =>
      rw [hd] at he
      cases he
      rw [get_lzma2_dic_size_error_other props e hd] at hmem
      cases hmem
    | ok dic =>
      rw [hd] at he
      simp only at he
      by_cases hgt : mem_usage dic > cap
      · rw [if_pos hgt] at he
        cases he
        exact ⟨dic, rfl, rfl, hgt⟩
      · rw [if_neg hgt] at he
        cases he
  · intro e o he hmem ho
    unfold get_ppmd_order_memory_size at he
    dsimp only at he
    split_ifs at he with h1 h2 h3 h4 h5 h6
    all_goals cases he
    all_goals first
      | (subst ho; exact ⟨by omega, rfl, by omega⟩)
      | (simp [SvError.isMemLimit] at hmem)
  · intro h5 h1 h2 h3 h4 hcap
    unfold get_ppmd_order_memory_size
    rw [if_neg (by omega), if_neg (by omega), if_neg (by omega), if_neg (by omega),
      if_neg (by omega), if_pos (by omega)]

/-- Witness for `mem_limit_exact`: with the identity estimator, a cap of 0 and
LZMA2 property byte 30 (dictionary size 2^27), construction fails with
`MaxMemLimited 0 (2^27)`. -/
theorem mem_limit_exact_witness :
    add_decoder_lzma2 (fun d => d) [30] 0 = .error (.MaxMemLimited 0 134217728) :=
  ((mem_limit_exact (fun d => d) [30] 0 2 64 2048 4294967259).1 134217728 (by decide)).1
    (by decide)

/-! ## AES key derivation and password requirement (claims C2 and C7)

`get_aes_key` (`src/src/encryption/aes.rs:111-153`) and the
`ID_AES256_SHA256` arm of `add_decoder` (`src/src/decoder.rs:299-307`).
The SHA-256 compression itself lives in the external `sha2` crate, so the
digest is a parameter; what the source controls — and what is modelled — is
the exact byte stream fed to the hasher.  Panics (`copy_from_slice` length
mismatches) are modelled as `Option.none`. -/

/-- The in-place little-endian increment of the 8-byte counter `extra`:
each byte is `wrapping_add(1)`; the loop stops at the first byte that did not
wrap to zero. -/
def incExtra : List Nat → List Nat
  | [] => []
  | b :: t => if (b + 1) % 256 ≠ 0 then (b + 1) % 256 :: t else 0 :: incExtra t

/-- The byte stream fed to the SHA-256 hasher by `get_aes_key`:
`count` iterations, each appending `salt`, then `password`, then the current
8-byte counter, which is incremented after each iteration. -/
def keyStreamCode (salt password : List Nat) : Nat → List Nat → List Nat
  | 0, _ => []
  | n + 1, extra => (salt ++ password ++ extra) ++ keyStreamCode salt password n (incExtra extra)

/-- `get_aes_key` from `src/src/encryption/aes.rs`.  Returns `none` where the
source panics; `digest` stands for SHA-256 finalization over the fed bytes.
The iteration count `1u32 << num_cycles_power` is modelled with Rust's
release-mode shift masking (`2 ^ (c % 32)`). -/
def get_aes_key (digest : List Nat → List Nat) (properties password : List Nat) :
    Option (Except SvError (List Nat × List Nat)) :=
  if properties.length < 2 then some (.error (.other "AES256 properties too shart"))
  else
    let b0 := properties.getD 0 0
    let b1 := properties.getD 1 0
    let num_cycles_power := b0 &&& 63
    let iv_size := ((b0 >>> 6) &&& 1) + (b1 &&& 15)
    let salt_size := ((b0 >>> 7) &&& 1) + (b1 >>> 4)
    if 2 + salt_size + iv_size > properties.length then
      some (.error (.other "Salt size + IV size too long"))
    else
      let salt := (properties.drop 2).take salt_size
      let iv := (properties.drop (2 + salt_size)).take iv_size ++ List.replicate (16 - iv_size) 0
      if password = [] then some (.error .PasswordRequired)
      else if num_cycles_power = 0x3F then
        -- `aes_key.copy_from_slice(&salt[..salt_size])` copies `salt_size`
        -- bytes into the whole 32-byte key array: panics unless salt_size = 32.
        if salt_size = 32 then some (.ok (salt, iv))
        else none
      else
        let count := 2 ^ (num_cycles_power % 32)
        some (.ok (digest (keyStreamCode salt password count (List.replicate 8 0)), iv))

/-- The `ID_AES256_SHA256` arm of `add_decoder` (`src/src/decoder.rs`):
empty-password check, then `Aes256Sha256Decoder::new`, whose only fallible
step is `Cipher::from_properties`, i.e. `get_aes_key`. -/
def add_decoder_aes256 (digest : List Nat → List Nat) (properties password : List Nat) :
    Option (Except SvError Unit) :=
  if password = [] then some (.error .PasswordRequired)
  else
    match get_aes_key digest properties password with
    | none => none
    | some (.error e) => some (.error e)
    | some (.ok _) => some (.ok ())

/-- Modelled from the spec: the `cycles = 0x3F` key rule — "the 32-byte key is
`salt || password` truncated/padded to 32 bytes". -/
def spec_key_cycles63 (salt password : List Nat) : List Nat :=
  (salt ++ password).take 32 ++ List.replicate (32 - (salt ++ password).length) 0

/-- C2 (code bug): with properties `[0x3F, 0x00]` (cycles = 0x3F, no salt, no
IV) and the non-empty password `[0x61]`, `get_aes_key` panics
(`copy_from_slice` source length 0 vs destination length 32) instead of
returning the key `salt || password` zero-padded to 32 bytes that the spec
prescribes. -/
theorem aes_key_cycles63_bug (digest : List Nat → List Nat) :
    get_aes_key digest [0x3F, 0x00] [0x61] = none
    ∧ spec_key_cycles63 [] [0x61] = 0x61 :: List.replicate 31 0 := by
  constructor
  · rfl
  · rfl

/-- C7: constructing the AES-256-SHA256 decoder with an empty password fails
with `PasswordRequired` (before touching any data), and with a non-empty
password the construction never yields `PasswordRequired`. -/
theorem aes_password_required (digest : List Nat → List Nat) (props pass : List Nat) :
    (pass = [] → add_decoder_aes256 digest props pass = some (.error .PasswordRequired))
    ∧ (pass ≠ [] → add_decoder_aes256 digest props pass ≠ some (.error .PasswordRequired)) := by
  constructor
  · intro h
    simp [add_decoder_aes256, h]
  · intro h
    have hkey : get_aes_key digest props pass ≠ some (.error .PasswordRequired) := by
      unfold get_aes_key
      dsimp only
      split_ifs <;> simp_all
    intro c
    unfold add_decoder_aes256 at c
    rw [if_neg h] at c
    cases hg : get_aes_key digest props pass with
    | none => rw [hg] at c; cases c
    | some v =>
      cases v with
      | error e =>
        rw [hg] at c
        simp only at c
        cases c
        exact hkey hg
      | ok k => rw [hg] at c; simp only at c; cases c

/-- Witness for `aes_password_required`: empty password on the one hand, the
password `[0x61]` with empty properties on the other. -/
theorem aes_password_required_witness :
    add_decoder_aes256 (fun x => x) [] [] = some (.error .PasswordRequired)
    ∧ add_decoder_aes256 (fun x => x) [] [0x61] ≠ some (.error .PasswordRequired) :=
  ⟨(aes_password_required (fun x => x) [] []).1 rfl,
   (aes_password_required (fun x => x) [] [0x61]).2 (by decide)⟩

/-! ## Solid grouping (claim C4)

`encode_path` and `MAX_BLOCK_SIZE` from `src/src/util/compress.rs:229-292`,
abstracted over the filesystem: an entry is represented by its uncompressed
size, and the produced partition into writer blocks is kept in push order
(size-capped singleton pushes interleave with accumulated groups). -/

/-- `const MAX_BLOCK_SIZE: u64 = 4 * 1024 * 1024 * 1024; // 4 GiB` -/
def MAX_BLOCK_SIZE : Nat := 4 * 1024 * 1024 * 1024

/-- Accumulator state of the solid loop in `encode_path`: blocks already
pushed, the running `entries` list (as sizes) and `file_size`. -/
structure GroupSt where
  blocks : List (List Nat)
  cur : List Nat
  file_size : Nat

/-- One iteration of the solid loop in `encode_path`. -/
def encode_path_step (st : GroupSt) (size : Nat) : GroupSt :=
  if size ≥ MAX_BLOCK_SIZE then
    { st with blocks := st.blocks ++ [[size]] }
  else if st.file_size + size ≥ MAX_BLOCK_SIZE then
    { blocks := st.blocks ++ [st.cur], cur := [size], file_size := size }
  else
    { st with cur := st.cur ++ [size], file_size := st.file_size + size }

/-- The solid path of `encode_path`: fold the loop over the collected entry
sizes and push the final non-empty group. -/
def encode_path_solid (sizes : List Nat) : List (List Nat) :=
  let st := sizes.foldl encode_path_step ⟨[], [], 0⟩
  if st.cur.isEmpty then st.blocks else st.blocks ++ [st.cur]

/-- The non-solid path of `encode_path`: one `push_archive_entry` (hence one
writer block) per entry. -/
def encode_path_non_solid (sizes : List Nat) : List (List Nat) :=
  sizes.map (fun s => [s])

/-- C4 counterexample: an entry of size 4 GiB − 1 = 4294967295 meets the
claimed cap, yet is not placed in a singleton block — a subsequent zero-sized
entry joins its block. -/
theorem solid_cap_counterexample :
    encode_path_solid [4294967295, 0] = [[4294967295, 0]]
    ∧ ∀ blk ∈ encode_path_solid [4294967295, 0], blk.length = 2 := by
  constructor
  · rfl
  · intro blk hblk
    have : blk = [4294967295, 0] := by
      have h : encode_path_solid [4294967295, 0] = [[4294967295, 0]] := rfl
      rw [h] at hblk
      simpa using hblk
    rw [this]
    rfl

theorem encode_path_fold_inv (sizes : List Nat) (st : GroupSt)
    (h1 : ∀ blk ∈ st.blocks, blk.sum ≤ MAX_BLOCK_SIZE - 1 ∨ ∃ s, blk = [s] ∧ MAX_BLOCK_SIZE ≤ s)
    (h2 : st.cur.sum = st.file_size) (h3 : st.file_size < MAX_BLOCK_SIZE) :
    (∀ blk ∈ sizes.foldl encode_path_step st |>.blocks,
        blk.sum ≤ MAX_BLOCK_SIZE - 1 ∨ ∃ s, blk = [s] ∧ MAX_BLOCK_SIZE ≤ s)
    ∧ (sizes.foldl encode_path_step st).cur.sum = (sizes.foldl encode_path_step st).file_size
    ∧ (sizes.foldl encode_path_step st).file_size < MAX_BLOCK_SIZE := by
  induction sizes generalizing st with
  | nil => exact ⟨h1, h2, h3⟩
  | cons size rest ih =>
    simp only [List.foldl_cons]
    unfold encode_path_step
    split_ifs with hbig hflush
    · refine ih _ ?_ h2 h3
      intro blk hblk
      rcases List.mem_append.mp hblk with h | h
      · exact h1 blk h
      · right
        exact ⟨size, by simpa using h, hbig⟩
    · refine ih _ ?_ rfl (by dsimp only; omega)
      intro blk hblk
      rcases List.mem_append.mp hblk with h | h
      · exact h1 blk h
      · left
        have : blk = st.cur := by simpa using h
        rw [this, h2]
        omega
    · exact ih _ h1 (by dsimp only; simp [h2]) (by dsimp only; omega)

/-- C4 (amended): in solid mode no produced block's pre-compression size
exceeds 4 GiB − 1 unless it is a singleton block holding one entry of at
least 4 GiB (the singleton rule fires at sizes `≥ 4 GiB`, i.e. strictly
exceeding 4 GiB − 1); non-solid mode assigns one block per entry. -/
theorem solid_grouping_bound (sizes : List Nat) :
    (∀ blk ∈ encode_path_solid sizes,
        blk.sum ≤ MAX_BLOCK_SIZE - 1 ∨ ∃ s, blk = [s] ∧ MAX_BLOCK_SIZE ≤ s)
    ∧ encode_path_non_solid sizes = sizes.map (fun s => [s]) := by
  refine ⟨?_, rfl⟩
  intro blk hblk
  have hinv := encode_path_fold_inv sizes ⟨[], [], 0⟩ (by simp) rfl (by norm_num [MAX_BLOCK_SIZE])
  unfold encode_path_solid at hblk
  by_cases hc : (sizes.foldl encode_path_step ⟨[], [], 0⟩).cur.isEmpty
  · rw [if_pos hc] at hblk
    exact hinv.1 blk hblk
  · rw [if_neg hc] at hblk
    rcases List.mem_append.mp hblk with h | h
    · exact hinv.1 blk h
    · left
      have : blk = (sizes.foldl encode_path_step ⟨[], [], 0⟩).cur := by simpa using h
      rw [this, hinv.2.1]
      have := hinv.2.2
      omega

/-- Witness for `solid_grouping_bound` at `sizes = [5]`. -/
theorem solid_grouping_bound_witness :
    [5].sum ≤ MAX_BLOCK_SIZE - 1 ∨ ∃ s, [5] = [s] ∧ MAX_BLOCK_SIZE ≤ s :=
  (solid_grouping_bound [5]).1 [5] (by decide)

/-! ## AES-256-CBC streaming (claims C1 and C10)

`Aes256Sha256Encoder::poll_write`/`poll_close` and `Cipher::update`/
`do_final` + `Aes256Sha256Decoder::poll_read` from
`src/src/encryption/aes.rs`.  The AES-256 block permutation for the derived
key is the external `aes` crate's job, so the encryption `E` and decryption
`D` of a single 16-byte block are parameters; the CBC chaining performed by
`cbc::Encryptor`/`cbc::Decryptor` (ciphertext feedback) and all of the
buffering logic are modelled from the source.  `Option.none` models a panic
(out-of-bounds slice). -/

/-- Byte-wise XOR of two equal-length blocks. -/
def xorB (a b : List Nat) : List Nat := List.zipWith (fun x y => x ^^^ y) a b

/-- One `cbc::Encryptor` block step: the plaintext block is XORed with the
chain value (IV or previous ciphertext block) and passed through AES. -/
def encBlock (E : List Nat → List Nat) (chain block : List Nat) : List Nat :=
  E (xorB chain block)

/-- Encoder state: CBC chain value, the partial-block `buffer`, and the bytes
emitted so far (the sink is assumed to accept everything, as `poll_write`
retries until its `out_buf` drains). -/
structure AesEncSt where
  chain : List Nat
  buffer : List Nat
  out : List Nat

/-- The `for chunk in buf.chunks(16)` loop of `poll_write`: encrypt each
complete 16-byte block, leave a trailing partial block in the buffer. -/
def encProcessFull (E : List Nat → List Nat) (data : List Nat) (st : AesEncSt) : AesEncSt :=
  if h : data.length < 16 then { st with buffer := data }
  else
    let c := encBlock E st.chain (data.take 16)
    encProcessFull E (data.drop 16) ⟨c, [], st.out ++ c⟩
termination_by data.length
decreasing_by simp; omega

/-- One `poll_write` call with a non-empty input `data` (the whole chunk is
accepted): complete the buffered partial block first if possible, else just
extend the buffer. -/
def aes_enc_write (E : List Nat → List Nat) (st : AesEncSt) (data : List Nat) : AesEncSt :=
  if st.buffer.isEmpty then
    encProcessFull E data st
  else
    let need := 16 - st.buffer.length
    if need ≤ data.length then
      let c := encBlock E st.chain (st.buffer ++ data.take need)
      encProcessFull E (data.drop need) ⟨c, [], st.out ++ c⟩
    else
      { st with buffer := st.buffer ++ data }

/-- `poll_close` (via the `finished` branch of `poll_flush`): pad the final
partial block with zeros to 16 bytes, encrypt and emit it. -/
def aes_enc_close (E : List Nat → List Nat) (st : AesEncSt) : List Nat :=
  if st.buffer.isEmpty then st.out
  else st.out ++ encBlock E st.chain (st.buffer ++ List.replicate (16 - st.buffer.length) 0)

/-- Writing a sequence of chunks through `Aes256Sha256Encoder` and closing:
the full ciphertext stream. -/
def aesEncodeChunks (E : List Nat → List Nat) (iv : List Nat) (cs : List (List Nat)) :
    List Nat :=
  aes_enc_close E (cs.foldl (aes_enc_write E) ⟨iv, [], []⟩)

/-- Decoder-side cipher state: CBC chain value and the `buf` of at most 15
carried-over bytes. -/
structure AesDecSt where
  chain : List Nat
  buf : List Nat

/-- One `cbc::Decryptor` block step: AES-decrypt the ciphertext block and XOR
with the chain value; the chain becomes the ciphertext block. -/
def decBlock (D : List Nat → List Nat) (chain c : List Nat) : List Nat :=
  xorB (D c) chain

/-- The `for a in data.chunks_mut(16)` loop of `Cipher::update`: decrypt each
complete block, buffer a trailing partial block. -/
def dec_full_blocks (D : List Nat → List Nat) (data : List Nat) (chain : List Nat) :
    AesDecSt × List Nat :=
  if h : data.length < 16 then (⟨chain, data⟩, [])
  else
    let c := data.take 16
    let p := decBlock D chain c
    let r := dec_full_blocks D (data.drop 16) c
    (r.1, p ++ r.2)
termination_by data.length
decreasing_by simp; omega

/-- `Cipher::update` from `src/src/encryption/aes.rs:169-196`.  When the
carried buffer is non-empty the source slices `&data[..16 - buf.len()]`,
which panics (`none`) whenever the incoming chunk is shorter than the
missing part of the block. -/
def cipher_update (D : List Nat → List Nat) (st : AesDecSt) (data : List Nat) :
    Option (AesDecSt × List Nat) :=
  if st.buf.isEmpty then
    some (dec_full_blocks D data st.chain)
  else if 16 ≤ st.buf.length then
    none    -- assert!(self.buf.len() < 16)
  else
    let e := 16 - st.buf.length
    if data.length < e then
      none  -- `&data[..end]` is out of bounds
    else
      let block := st.buf ++ data.take e
      let p := decBlock D st.chain block
      let r := dec_full_blocks D (data.drop e) block
      some (r.1, p ++ r.2)

/-- `Cipher::do_final`: succeeds (with no extra output) iff no partial block
remains; otherwise the decoder errors with `IllegalBlockSize`. -/
def cipher_do_final (st : AesDecSt) : Bool := st.buf.isEmpty

/-- The `poll_read` loop of `Aes256Sha256Decoder` feeds `Cipher::update` with
successive chunks; this folds it over a chunk list. -/
def aes_dec_loop (D : List Nat → List Nat) : List (List Nat) → AesDecSt →
    Option (AesDecSt × List Nat)
  | [], st => some (st, [])
  | c :: cs, st =>
    match cipher_update D st c with
    | none => none
    | some (st1, o1) =>
      match aes_dec_loop D cs st1 with
      | none => none
      | some (st2, o2) => some (st2, o1 ++ o2)

/-- Splitting a byte stream into successive chunks of (at most) `n` bytes,
`n > 0`; the decoder's `poll_read` reads the input through a 512-byte buffer,
which on an in-memory source yields exactly `chunksN 512`. -/
def chunksN (n : Nat) (hn : 0 < n) (l : List Nat) : List (List Nat) :=
  if h : l = [] then []
  else l.take n :: chunksN n hn (l.drop n)
termination_by l.length
decreasing_by
  simp
  exact ⟨List.length_pos.mpr h, hn⟩

/-- Reading an in-memory ciphertext through `Aes256Sha256Decoder`: 512-byte
reads, `Cipher::update` per chunk, `Cipher::do_final` at EOF. -/
def aes_decode_stream (D : List Nat → List Nat) (iv ct : List Nat) : Option (List Nat) :=
  match aes_dec_loop D (chunksN 512 (by omega) ct) ⟨iv, []⟩ with
  | none => none
  | some (st, out) => if cipher_do_final st then some out else none

/-- Zero padding of the plaintext to the next 16-byte boundary, as performed
by the encoder on close. -/
def pad16 (p : List Nat) : List Nat :=
  p ++ List.replicate ((16 - p.length % 16) % 16) 0

theorem xorB_length (a b : List Nat) : (xorB a b).length = min a.length b.length := by
  simp [xorB]

theorem xorB_cancel (a b : List Nat) (h : a.length = b.length) :
    xorB (xorB a b) a = b := by
  induction a generalizing b with
  | nil =>
    cases b with
    | nil => rfl
    | cons y t => cases h
  | cons x s ih =>
    cases b with
    | nil => cases h
    | cons y t =>
      simp only [xorB, List.zipWith_cons_cons] at *
      rw [Nat.xor_comm x y, Nat.xor_assoc, Nat.xor_self, Nat.xor_zero,
        ih t (by simpa using h)]

theorem pad16_length (p : List Nat) : (pad16 p).length = 16 * ((p.length + 15) / 16) := by
  simp only [pad16, List.length_append, List.length_replicate]
  omega

theorem pad16_mod (p : List Nat) : (pad16 p).length % 16 = 0 := by
  rw [pad16_length]
  omega

theorem pad16_small (p : List Nat) (h0 : p ≠ []) (h : p.length < 16) :
    pad16 p = p ++ List.replicate (16 - p.length) 0 := by
  have : p.length % 16 = p.length := Nat.mod_eq_of_lt h
  have hpos : 0 < p.length := List.length_pos.mpr h0
  simp only [pad16, this]
  congr 2
  omega

theorem pad16_step (p : List Nat) (h : 16 ≤ p.length) :
    (pad16 p).take 16 = p.take 16 ∧ (pad16 p).drop 16 = pad16 (p.drop 16) := by
  constructor
  · rw [pad16, List.take_append_eq_append_take]
    simp [Nat.sub_eq_zero_of_le h]
  · rw [pad16, List.drop_append_eq_append_drop, pad16]
    have h1 : (p.drop 16).length % 16 = p.length % 16 := by
      simp only [List.length_drop]
      omega
    rw [h1, Nat.sub_eq_zero_of_le h, List.drop_zero]

theorem encProcessFull_small (E : List Nat → List Nat) (data : List Nat) (st : AesEncSt)
    (h : data.length < 16) : encProcessFull E data st = { st with buffer := data } := by
  rw [encProcessFull]
  exact dif_pos h

theorem encProcessFull_large (E : List Nat → List Nat) (data : List Nat) (st : AesEncSt)
    (h : ¬ data.length < 16) :
    encProcessFull E data st =
      encProcessFull E (data.drop 16)
        ⟨encBlock E st.chain (data.take 16), [],
         st.out ++ encBlock E st.chain (data.take 16)⟩ := by
  conv_lhs => rw [encProcessFull]
  rw [dif_neg h]

/-- `encProcessFull` ignores the incoming buffer and only appends to the
incoming output. -/
theorem encProcessFull_out (E : List Nat → List Nat) :
    ∀ (n : Nat) (data : List Nat), data.length ≤ n → ∀ ch b0 out,
      encProcessFull E data ⟨ch, b0, out⟩ =
        ⟨(encProcessFull E data ⟨ch, [], []⟩).chain,
         (encProcessFull E data ⟨ch, [], []⟩).buffer,
         out ++ (encProcessFull E data ⟨ch, [], []⟩).out⟩ := by
  intro n
  induction n with
  | zero =>
    intro data hd ch b0 out
    have hdata : data = [] := List.eq_nil_of_length_eq_zero (by omega)
    subst hdata
    rw [encProcessFull_small E [] ⟨ch, b0, out⟩ (by simp),
      encProcessFull_small E [] ⟨ch, [], []⟩ (by simp)]
    simp
  | succ n ih =>
    intro data hd ch b0 out
    by_cases h : data.length < 16
    · rw [encProcessFull_small E data ⟨ch, b0, out⟩ h,
        encProcessFull_small E data ⟨ch, [], []⟩ h]
      simp
    · rw [encProcessFull_large E data ⟨ch, b0, out⟩ h,
        encProcessFull_large E data ⟨ch, [], []⟩ h]
      dsimp only
      have hlen : (data.drop 16).length ≤ n := by
        simp only [List.length_drop]
        omega
      rw [ih _ hlen (encBlock E ch (data.take 16)) []
          (out ++ encBlock E ch (data.take 16)),
        ih _ hlen (encBlock E ch (data.take 16)) []
          ([] ++ encBlock E ch (data.take 16))]
      simp

/-- A `poll_write` on a state whose buffer holds the last partial block
behaves like running the block loop on `buffer ++ data` from a buffer-free
state. -/
theorem aes_enc_write_eq (E : List Nat → List Nat) (ch buf out data : List Nat)
    (hb : buf.length < 16) :
    aes_enc_write E ⟨ch, buf, out⟩ data = encProcessFull E (buf ++ data) ⟨ch, [], out⟩ := by
  by_cases hbe : buf = []
  · subst hbe
    simp [aes_enc_write]
  · unfold aes_enc_write
    rw [if_neg (by simpa using hbe)]
    dsimp only
    by_cases hneed : 16 - buf.length ≤ data.length
    · rw [if_pos hneed]
      have htake : (buf ++ data).take 16 = buf ++ data.take (16 - buf.length) := by
        rw [List.take_append_eq_append_take, List.take_of_length_le (le_of_lt hb)]
      have hdrop : (buf ++ data).drop 16 = data.drop (16 - buf.length) := by
        rw [List.drop_append_eq_append_drop, List.drop_of_length_le (le_of_lt hb)]
        simp
      rw [encProcessFull_large E (buf ++ data) ⟨ch, [], out⟩ (by simp; omega)]
      dsimp only
      rw [htake, hdrop]
    · rw [if_neg hneed]
      rw [encProcessFull_small E (buf ++ data) ⟨ch, [], out⟩ (by simp; omega)]

/-- Composing a finished block loop with one more `poll_write` is the block
loop on the concatenation. -/
theorem encProcessFull_append (E : List Nat → List Nat) :
    ∀ (n : Nat) (a : List Nat), a.length ≤ n → ∀ (b ch out : List Nat),
      aes_enc_write E (encProcessFull E a ⟨ch, [], out⟩) b
        = encProcessFull E (a ++ b) ⟨ch, [], out⟩ := by
  intro n
  induction n with
  | zero =>
    intro a ha b ch out
    have hae : a = [] := List.eq_nil_of_length_eq_zero (by omega)
    subst hae
    rw [encProcessFull_small E [] ⟨ch, [], out⟩ (by simp)]
    exact aes_enc_write_eq E ch [] out b (by simp)
  | succ n ih =>
    intro a ha b ch out
    by_cases h : a.length < 16
    · rw [encProcessFull_small E a ⟨ch, [], out⟩ h]
      exact aes_enc_write_eq E ch a out b h
    · rw [encProcessFull_large E a ⟨ch, [], out⟩ h]
      dsimp only
      rw [ih (a.drop 16) (by simp only [List.length_drop]; omega)]
      rw [encProcessFull_large E (a ++ b) ⟨ch, [], out⟩ (by simp; omega)]
      dsimp only
      have ht : (a ++ b).take 16 = a.take 16 := by
        rw [List.take_append_eq_append_take, Nat.sub_eq_zero_of_le (by omega)]
        simp
      have hd : (a ++ b).drop 16 = a.drop 16 ++ b := by
        rw [List.drop_append_eq_append_drop, Nat.sub_eq_zero_of_le (by omega)]
        simp
      rw [ht, hd]

/-- Folding `poll_write` over a chunk list is the block loop on the flattened
stream. -/
theorem aes_enc_fold (E : List Nat → List Nat) (cs : List (List Nat)) :
    ∀ (p ch out : List Nat),
      cs.foldl (aes_enc_write E) (encProcessFull E p ⟨ch, [], out⟩)
        = encProcessFull E (p ++ cs.flatten) ⟨ch, [], out⟩ := by
  induction cs with
  | nil =>
    intro p ch out
    simp
  | cons c cs ih =>
    intro p ch out
    simp only [List.foldl_cons, List.flatten_cons]
    rw [encProcessFull_append E p.length p (le_refl _) c ch out, ih (p ++ c) ch out,
      List.append_assoc]

/-- Closing after the block loop on `p` emits exactly the block loop's output
on the zero-padded plaintext. -/
theorem aes_enc_close_pad (E : List Nat → List Nat) :
    ∀ (n : Nat) (p : List Nat), p.length ≤ n → ∀ (ch out : List Nat),
      aes_enc_close E (encProcessFull E p ⟨ch, [], out⟩)
        = (encProcessFull E (pad16 p) ⟨ch, [], out⟩).out := by
  intro n
  induction n with
  | zero =>
    intro p hp ch out
    have hpe : p = [] := List.eq_nil_of_length_eq_zero (by omega)
    subst hpe
    rw [show pad16 [] = [] from rfl,
      encProcessFull_small E [] ⟨ch, [], out⟩ (by simp)]
    rfl
  | succ n ih =>
    intro p hp ch out
    by_cases h : p.length < 16
    · by_cases hpe : p = []
      · subst hpe
        rw [show pad16 [] = [] from rfl,
          encProcessFull_small E [] ⟨ch, [], out⟩ (by simp)]
        rfl
      · rw [encProcessFull_small E p ⟨ch, [], out⟩ h]
        have hps : pad16 p = p ++ List.replicate (16 - p.length) 0 := pad16_small p hpe h
        have hlen16 : (pad16 p).length = 16 := by
          rw [pad16_length]
          have : 0 < p.length := List.length_pos.mpr hpe
          omega
        rw [encProcessFull_large E (pad16 p) ⟨ch, [], out⟩ (by omega)]
        rw [List.take_of_length_le (by omega), List.drop_of_length_le (by omega)]
        rw [encProcessFull_small E [] _ (by simp)]
        dsimp only
        rw [aes_enc_close, if_neg (by simpa using hpe)]
        dsimp only
        rw [hps]
    · rw [encProcessFull_large E p ⟨ch, [], out⟩ h]
      rw [ih (p.drop 16) (by simp only [List.length_drop]; omega)]
      have hstep := pad16_step p (by omega)
      rw [encProcessFull_large E (pad16 p) ⟨ch, [], out⟩
        (by rw [pad16_length]; omega)]
      dsimp only
      rw [hstep.1, hstep.2]

/-- Output length and chain-length invariant of the block loop. -/
theorem encProcessFull_len (E : List Nat → List Nat)
    (hE : ∀ b, b.length = 16 → (E b).length = 16) :
    ∀ (n : Nat) (p : List Nat), p.length ≤ n → ∀ (ch out : List Nat), ch.length = 16 →
      (encProcessFull E p ⟨ch, [], out⟩).out.length = out.length + 16 * (p.length / 16)
      ∧ (encProcessFull E p ⟨ch, [], out⟩).chain.length = 16 := by
  intro n
  induction n with
  | zero =>
    intro p hp ch out hch
    have hpe : p = [] := List.eq_nil_of_length_eq_zero (by omega)
    subst hpe
    rw [encProcessFull_small E [] ⟨ch, [], out⟩ (by simp)]
    simpa using hch
  | succ n ih =>
    intro p hp ch out hch
    by_cases h : p.length < 16
    · rw [encProcessFull_small E p ⟨ch, [], out⟩ h]
      constructor
      · have : p.length / 16 = 0 := Nat.div_eq_of_lt h
        simp [this]
      · exact hch
    · rw [encProcessFull_large E p ⟨ch, [], out⟩ h]
      dsimp only
      have hc : (encBlock E ch (p.take 16)).length = 16 := by
        apply hE
        rw [xorB_length, hch, List.length_take]
        omega
      have := ih (p.drop 16) (by simp only [List.length_drop]; omega)
        (encBlock E ch (p.take 16)) (out ++ encBlock E ch (p.take 16)) hc
      refine ⟨?_, this.2⟩
      rw [this.1]
      simp only [List.length_append, List.length_drop, hc]
      omega

theorem dec_full_blocks_small (D : List Nat → List Nat) (data chain : List Nat)
    (h : data.length < 16) : dec_full_blocks D data chain = (⟨chain, data⟩, []) := by
  rw [dec_full_blocks]
  exact dif_pos h

theorem dec_full_blocks_large (D : List Nat → List Nat) (data chain : List Nat)
    (h : ¬ data.length < 16) :
    dec_full_blocks D data chain =
      ((dec_full_blocks D (data.drop 16) (data.take 16)).1,
       decBlock D chain (data.take 16) ++ (dec_full_blocks D (data.drop 16) (data.take 16)).2) := by
  conv_lhs => rw [dec_full_blocks]
  rw [dif_neg h]

/-- On a 16-aligned input the decoder's block loop carries no bytes over. -/
theorem dec_full_blocks_aligned (D : List Nat → List Nat) :
    ∀ (n : Nat) (d : List Nat), d.length ≤ n → 16 ∣ d.length → ∀ ch,
      (dec_full_blocks D d ch).1.buf = [] := by
  intro n
  induction n with
  | zero =>
    intro d hd hdvd ch
    have hde : d = [] := List.eq_nil_of_length_eq_zero (by omega)
    subst hde
    rw [dec_full_blocks_small D [] ch (by simp)]
  | succ n ih =>
    intro d hd hdvd ch
    by_cases h : d.length < 16
    · have hde : d = [] := by
        rcases hdvd with ⟨k, hk⟩
        cases k with
        | zero => exact List.eq_nil_of_length_eq_zero (by omega)
        | succ k => omega
      subst hde
      rw [dec_full_blocks_small D [] ch (by simp)]
    · rw [dec_full_blocks_large D d ch h]
      exact ih (d.drop 16) (by simp only [List.length_drop]; omega)
        (by simp only [List.length_drop]; omega) (d.take 16)

/-- Splitting the decoder's block loop at a 16-aligned boundary. -/
theorem dec_full_blocks_append (D : List Nat → List Nat) :
    ∀ (n : Nat) (a : List Nat), a.length ≤ n → 16 ∣ a.length → ∀ (b ch : List Nat),
      dec_full_blocks D (a ++ b) ch =
        ((dec_full_blocks D b (dec_full_blocks D a ch).1.chain).1,
         (dec_full_blocks D a ch).2
           ++ (dec_full_blocks D b (dec_full_blocks D a ch).1.chain).2) := by
  intro n
  induction n with
  | zero =>
    intro a ha hdvd b ch
    have hae : a = [] := List.eq_nil_of_length_eq_zero (by omega)
    subst hae
    rw [dec_full_blocks_small D [] ch (by simp)]
    simp
  | succ n ih =>
    intro a ha hdvd b ch
    by_cases h : a.length < 16
    · have hae : a = [] := by
        rcases hdvd with ⟨k, hk⟩
        cases k with
        | zero => exact List.eq_nil_of_length_eq_zero (by omega)
        | succ k => omega
      subst hae
      rw [dec_full_blocks_small D [] ch (by simp)]
      simp
    · have ht : (a ++ b).take 16 = a.take 16 := by
        rw [List.take_append_eq_append_take, Nat.sub_eq_zero_of_le (by omega)]
        simp
      have hd2 : (a ++ b).drop 16 = a.drop 16 ++ b := by
        rw [List.drop_append_eq_append_drop, Nat.sub_eq_zero_of_le (by omega)]
        simp
      rw [dec_full_blocks_large D (a ++ b) ch (by simp; omega), ht, hd2,
        ih (a.drop 16) (by simp only [List.length_drop]; omega)
          (by simp only [List.length_drop]; omega),
        dec_full_blocks_large D a ch h]
      simp [List.append_assoc]

/-- CBC inversion: decrypting the encoder block loop's output recovers the
16-aligned plaintext, with an empty carry buffer. -/
theorem dec_enc_inverse (E D : List Nat → List Nat)
    (hE : ∀ b, b.length = 16 → (E b).length = 16)
    (hinv : ∀ b, b.length = 16 → D (E b) = b) :
    ∀ (n : Nat) (p : List Nat), p.length ≤ n → 16 ∣ p.length → ∀ ch, ch.length = 16 →
      dec_full_blocks D ((encProcessFull E p ⟨ch, [], []⟩).out) ch
        = ((dec_full_blocks D ((encProcessFull E p ⟨ch, [], []⟩).out) ch).1, p)
      ∧ (dec_full_blocks D ((encProcessFull E p ⟨ch, [], []⟩).out) ch).1.buf = [] := by
  intro n
  induction n with
  | zero =>
    intro p hp hdvd ch hch
    have hpe : p = [] := List.eq_nil_of_length_eq_zero (by omega)
    subst hpe
    rw [encProcessFull_small E [] ⟨ch, [], []⟩ (by simp)]
    dsimp only
    rw [dec_full_blocks_small D [] ch (by simp)]
    exact ⟨rfl, rfl⟩
  | succ n ih =>
    intro p hp hdvd ch hch
    by_cases h : p.length < 16
    · have hpe : p = [] := by
        rcases hdvd with ⟨k, hk⟩
        cases k with
        | zero => exact List.eq_nil_of_length_eq_zero (by omega)
        | succ k => omega
      subst hpe
      rw [encProcessFull_small E [] ⟨ch, [], []⟩ (by simp)]
      dsimp only
      rw [dec_full_blocks_small D [] ch (by simp)]
      exact ⟨rfl, rfl⟩
    · have hb16 : (p.take 16).length = 16 := by
        rw [List.length_take]
        omega
      have hx16 : (xorB ch (p.take 16)).length = 16 := by
        rw [xorB_length, hch, hb16]
        exact min_self 16
      have hc16 : (encBlock E ch (p.take 16)).length = 16 := hE _ hx16
      rw [encProcessFull_large E p ⟨ch, [], []⟩ h]
      dsimp only
      rw [encProcessFull_out E (p.drop 16).length (p.drop 16) (le_refl _)
        (encBlock E ch (p.take 16)) [] ([] ++ encBlock E ch (p.take 16))]
      dsimp only
      set c := encBlock E ch (p.take 16) with hc
      set R := (encProcessFull E (p.drop 16) ⟨c, [], []⟩).out with hR
      have hsplit : [] ++ c ++ R = c ++ R := by simp
      rw [hsplit]
      have ht : (c ++ R).take 16 = c := by
        rw [List.take_append_eq_append_take, List.take_of_length_le (by omega),
          Nat.sub_eq_zero_of_le (by omega)]
        simp
      have hd2 : (c ++ R).drop 16 = R := by
        rw [List.drop_append_eq_append_drop, List.drop_of_length_le (by omega),
          Nat.sub_eq_zero_of_le (by omega)]
        simp
      rw [dec_full_blocks_large D (c ++ R) ch (by simp [List.length_append]; omega),
        ht, hd2]
      have hdec : decBlock D ch c = p.take 16 := by
        rw [hc, decBlock, encBlock, hinv _ hx16]
        exact xorB_cancel ch (p.take 16) (by rw [hch, hb16])
      have hih := ih (p.drop 16) (by simp only [List.length_drop]; omega)
        (by simp only [List.length_drop]; omega) c hc16
      rw [← hR] at hih
      refine ⟨?_, hih.2⟩
      have h2 : (dec_full_blocks D R c).2 = p.drop 16 := congrArg Prod.snd hih.1
      dsimp only
      rw [hdec, h2, List.take_append_drop]

theorem chunksN_nil (n : Nat) (hn : 0 < n) : chunksN n hn [] = [] := by
  rw [chunksN]
  rfl

theorem chunksN_cons (n : Nat) (hn : 0 < n) (l : List Nat) (h : l ≠ []) :
    chunksN n hn l = l.take n :: chunksN n hn (l.drop n) := by
  conv_lhs => rw [chunksN]
  rw [dif_neg h]

/-- The decoder's 512-byte read loop on a 16-aligned ciphertext equals the
plain block loop on the whole stream (and never panics). -/
theorem aes_dec_loop_chunks (D : List Nat → List Nat) :
    ∀ (n : Nat) (ct : List Nat), ct.length ≤ n → 16 ∣ ct.length → ∀ ch,
      aes_dec_loop D (chunksN 512 (by omega) ct) ⟨ch, []⟩
        = some (dec_full_blocks D ct ch) := by
  intro n
  induction n with
  | zero =>
    intro ct hct hdvd ch
    have hcte : ct = [] := List.eq_nil_of_length_eq_zero (by omega)
    subst hcte
    rw [chunksN_nil, dec_full_blocks_small D [] ch (by simp)]
    rfl
  | succ n ih =>
    intro ct hct hdvd ch
    by_cases hcte : ct = []
    · subst hcte
      rw [chunksN_nil, dec_full_blocks_small D [] ch (by simp)]
      rfl
    · rw [chunksN_cons 512 (by omega) ct hcte]
      have hta : 16 ∣ (ct.take 512).length := by
        rw [List.length_take]
        rcases le_or_lt 512 ct.length with hle | hlt
        · rw [min_eq_left hle]
          omega
        · rw [min_eq_right (by omega)]
          exact hdvd
      have hda : 16 ∣ (ct.drop 512).length := by
        rw [List.length_drop]
        rcases hta with ⟨k, hk⟩
        rcases hdvd with ⟨m, hm⟩
        rw [List.length_take] at hk
        omega
      have hbuf : (dec_full_blocks D (ct.take 512) ch).1.buf = [] :=
        dec_full_blocks_aligned D (ct.take 512).length _ (le_refl _) hta ch
      have hupd : cipher_update D ⟨ch, []⟩ (ct.take 512)
          = some (dec_full_blocks D (ct.take 512) ch) := by
        rw [cipher_update, if_pos (by simp)]
      have hst1 : (dec_full_blocks D (ct.take 512) ch).1
          = ⟨(dec_full_blocks D (ct.take 512) ch).1.chain, []⟩ := by
        rw [← hbuf]
      have hpos : 0 < ct.length := List.length_pos.mpr hcte
      have hih := ih (ct.drop 512) (by simp only [List.length_drop]; omega) hda
        (dec_full_blocks D (ct.take 512) ch).1.chain
      rw [aes_dec_loop, hupd]
      dsimp only
      rw [hst1, hih]
      dsimp only
      rw [← List.take_append_drop 512 ct]
      rw [dec_full_blocks_append D (ct.take 512).length (ct.take 512) (le_refl _) hta
        (ct.drop 512) ch]
      rw [List.take_append_drop]

/-- C1: writing a plaintext `p` (as any chunk sequence) through
`Aes256Sha256Encoder` and closing emits a ciphertext whose length is the
smallest multiple of 16 at least `p.length`, and decoding that ciphertext
with the matching CBC decryptor yields exactly `p` followed by the zero
padding.  `E`/`D` are the AES-256 block permutation (and its inverse) for the
key both sides derive from the shared properties and password. -/
theorem aes_cbc_round_trip (E D : List Nat → List Nat) (iv p : List Nat)
    (cs : List (List Nat)) (hp : cs.flatten = p) (hiv : iv.length = 16)
    (hE : ∀ b, b.length = 16 → (E b).length = 16)
    (hinv : ∀ b, b.length = 16 → D (E b) = b) :
    (aesEncodeChunks E iv cs).length = 16 * ((p.length + 15) / 16)
    ∧ aes_decode_stream D iv (aesEncodeChunks E iv cs)
        = some (p ++ List.replicate ((aesEncodeChunks E iv cs).length - p.length) 0) := by
  subst hp
  have h0 : encProcessFull E ([] : List Nat) ⟨iv, [], []⟩ = ⟨iv, [], []⟩ := by
    rw [encProcessFull_small E [] _ (by simp)]
  have hfold := aes_enc_fold E cs [] iv []
  rw [h0] at hfold
  simp only [List.nil_append] at hfold
  have hct : aesEncodeChunks E iv cs
      = (encProcessFull E (pad16 cs.flatten) ⟨iv, [], []⟩).out := by
    rw [aesEncodeChunks, hfold,
      aes_enc_close_pad E cs.flatten.length cs.flatten (le_refl _)]
  have hpad : 16 ∣ (pad16 cs.flatten).length :=
    Nat.dvd_of_mod_eq_zero (pad16_mod cs.flatten)
  have hlen : (aesEncodeChunks E iv cs).length = (pad16 cs.flatten).length := by
    rw [hct,
      (encProcessFull_len E hE (pad16 cs.flatten).length (pad16 cs.flatten)
        (le_refl _) iv [] hiv).1]
    simp only [List.length_nil, Nat.zero_add]
    omega
  refine ⟨by rw [hlen, pad16_length], ?_⟩
  obtain ⟨heq, hbuf⟩ := dec_enc_inverse E D hE hinv (pad16 cs.flatten).length
    (pad16 cs.flatten) (le_refl _) hpad iv hiv
  have hdvd : 16 ∣ (aesEncodeChunks E iv cs).length := by
    rw [hlen]
    exact hpad
  rw [aes_decode_stream,
    aes_dec_loop_chunks D (aesEncodeChunks E iv cs).length _ (le_refl _) hdvd iv]
  rw [hct] at hlen ⊢
  rw [heq]
  dsimp only
  rw [cipher_do_final, hbuf]
  simp only [List.isEmpty_nil, if_true]
  have hfin : pad16 cs.flatten
      = cs.flatten ++ List.replicate ((pad16 cs.flatten).length - cs.flatten.length) 0 := by
    conv_lhs => rw [pad16]
    congr 1
    congr 1
    rw [pad16_length]
    omega
  rw [hlen, ← hfin]

/-- Witness for `aes_cbc_round_trip`: identity block cipher, zero IV, the
3-byte plaintext `[1, 2, 3]` written as one chunk. -/
theorem aes_cbc_round_trip_witness :
    (aesEncodeChunks (fun b => b) (List.replicate 16 0) [[1, 2, 3]]).length
      = 16 * (([1, 2, 3].length + 15) / 16)
    ∧ aes_decode_stream (fun b => b) (List.replicate 16 0)
        (aesEncodeChunks (fun b => b) (List.replicate 16 0) [[1, 2, 3]])
      = some ([1, 2, 3] ++ List.replicate
          ((aesEncodeChunks (fun b => b) (List.replicate 16 0) [[1, 2, 3]]).length
            - [1, 2, 3].length) 0) :=
  aes_cbc_round_trip (fun b => b) (fun b => b) (List.replicate 16 0) [1, 2, 3]
    [[1, 2, 3]] rfl (by simp) (fun b h => h) (fun b h => rfl)

/-- C10 (code bug): `Cipher::update` panics on a short chunk while bytes are
buffered.  First conjunct: a 1-byte read is buffered (reaching the state the
claim describes with `k = 1`); second conjunct: the following 1-byte chunk
(shorter than `16 - k = 15` bytes) makes `update` slice `&data[..15]` out of
bounds instead of buffering it. -/
theorem cipher_update_short_chunk_panics (D : List Nat → List Nat) (chain : List Nat) :
    cipher_update D ⟨chain, []⟩ [5] = some (⟨chain, [5]⟩, [])
    ∧ cipher_update D ⟨chain, [5]⟩ [7] = none := by
  constructor
  · simp [cipher_update, dec_full_blocks]
  · simp [cipher_update]

/-! ## Skippable-frame wrapper (claims C3 and C8)

`BrotliDecoder::new`/`poll_read` and `InnerReader::read_next_frame_header`
from `src/src/codec/brotli.rs`, the `Lz4Decoder` analogues from
`src/src/codec/lz4.rs`, and `BrotliEncoder::build_frame_bytes`/`poll_write`/
`poll_close`.  The inner Brotli/Lz4 codecs are external byte-in/byte-out
transforms; the decoder model returns the byte streams the wrapper delivers
to successive inner decoder instances, and the encoder model takes the
per-frame compressor as a function parameter. -/

/-- `const SKIPPABLE_FRAME_MAGIC: u32 = 0x184D2A50;` -/
def SKIPPABLE_FRAME_MAGIC : Nat := 0x184D2A50

/-- `const BROTLI_MAGIC: u16 = 0x5242;` ("BR" little-endian) -/
def BROTLI_MAGIC : Nat := 0x5242

/-- Outcome of opening a skippable-frame decoder over a byte stream:
an error from `new`, standard mode (the single stream handed to the inner
codec), or framed mode (the streams handed to successive fresh inner
decoders, plus whether the frame loop ended in an I/O error rather than a
clean end-of-stream). -/
inductive FrameDecodeResult where
  | failed (msg : String)
  | standard (stream : List Nat)
  | framed (streams : List (List Nat)) (ioError : Bool)
  deriving DecidableEq, Repr

/-- The framed-mode loop of `BrotliDecoder::poll_read` +
`InnerReader::read_next_frame_header`: deliver `comp` bytes to the inner
codec; when the frame completed exactly, try to parse another 16-byte header
(magic read failure/mismatch and `skip_size`/`BROTLI_MAGIC` mismatches end
the stream cleanly; a truncated header after a matching magic propagates an
I/O error); a frame declared with `comp = 0` never sets `frame_finished`, so
the loop ends after it. -/
def brotli_read_frames (comp : Nat) (rest : List Nat) : List (List Nat) × Bool :=
  let payload := rest.take comp
  let rest2 := rest.drop comp
  if h0 : comp = 0 then ([payload], false)
  else if h1 : rest.length < comp then ([payload], false)
  else if rest2.length < 4 then ([payload], false)
  else if ofLeBytes (rest2.take 4) ≠ SKIPPABLE_FRAME_MAGIC then ([payload], false)
  else if rest2.length < 8 then ([payload], true)
  else if ofLeBytes ((rest2.drop 4).take 4) ≠ 8 then ([payload], false)
  else if rest2.length < 12 then ([payload], true)
  else if rest2.length < 14 then ([payload], true)
  else if ofLeBytes ((rest2.drop 12).take 2) ≠ BROTLI_MAGIC then ([payload], false)
  else if rest2.length < 16 then ([payload], true)
  else
    let comp2 := ofLeBytes ((rest2.drop 8).take 4)
    let r := brotli_read_frames comp2 (rest2.drop 16)
    (payload :: r.1, r.2)
termination_by rest.length
decreasing_by
  simp
  omega

/-- `BrotliDecoder::new`: peek up to 16 bytes; enter framed mode when the
first 4 bytes are the skippable magic and a full 16-byte header was read
(validating `skip_size = 8` and the Brotli magic), standard mode otherwise
(the peeked bytes are prepended to the remaining input). -/
def brotli_decoder_new (input : List Nat) : FrameDecodeResult :=
  let header_read := min 16 input.length
  if header_read < 4 then .failed "Input too short"
  else
    let header := input.take 16
    if ofLeBytes (header.take 4) = SKIPPABLE_FRAME_MAGIC ∧ 16 ≤ header_read then
      if ofLeBytes ((header.drop 4).take 4) ≠ 8 then
        .failed "Invalid brotli skippable frame size"
      else if ofLeBytes ((header.drop 12).take 2) ≠ BROTLI_MAGIC then
        .failed "Invalid brotli magic value"
      else
        let comp := ofLeBytes ((header.drop 8).take 4)
        let r := brotli_read_frames comp (input.drop 16)
        .framed r.1 r.2
    else
      .standard (input.take header_read ++ input.drop header_read)

/-- The framed-mode loop of `Lz4Decoder::poll_read` +
`InnerReader::read_next_frame_header` (12-byte headers, `skip_size = 4`,
no codec magic or hint field). -/
def lz4_read_frames (comp : Nat) (rest : List Nat) : List (List Nat) × Bool :=
  let payload := rest.take comp
  let rest2 := rest.drop comp
  if h0 : comp = 0 then ([payload], false)
  else if h1 : rest.length < comp then ([payload], false)
  else if rest2.length < 4 then ([payload], false)
  else if ofLeBytes (rest2.take 4) ≠ SKIPPABLE_FRAME_MAGIC then ([payload], false)
  else if rest2.length < 8 then ([payload], true)
  else if ofLeBytes ((rest2.drop 4).take 4) ≠ 4 then ([payload], false)
  else if rest2.length < 12 then ([payload], true)
  else
    let comp2 := ofLeBytes ((rest2.drop 8).take 4)
    let r := lz4_read_frames comp2 (rest2.drop 12)
    (payload :: r.1, r.2)
termination_by rest.length
decreasing_by
  simp
  omega

/-- `Lz4Decoder::new`: peek up to 12 bytes; framed mode when the magic
matches and a full 12-byte header was read (validating `skip_size = 4`),
standard mode otherwise. -/
def lz4_decoder_new (input : List Nat) : FrameDecodeResult :=
  let header_read := min 12 input.length
  if header_read < 4 then .failed "Input too short"
  else
    let header := input.take 12
    if ofLeBytes (header.take 4) = SKIPPABLE_FRAME_MAGIC ∧ 12 ≤ header_read then
      if ofLeBytes ((header.drop 4).take 4) ≠ 4 then
        .failed "Invalid lz4 skippable frame size"
      else
        let comp := ofLeBytes ((header.drop 8).take 4)
        let r := lz4_read_frames comp (input.drop 12)
        .framed r.1 r.2
    else
      .standard (input.take header_read ++ input.drop header_read)

/-- A well-formed Brotli skippable frame with an arbitrary hint field. -/
def mkBrotliFrame (hint : Nat) (payload : List Nat) : List Nat :=
  leBytes 4 SKIPPABLE_FRAME_MAGIC ++ leBytes 4 8 ++ leBytes 4 payload.length
    ++ leBytes 2 BROTLI_MAGIC ++ leBytes 2 hint ++ payload

/-- A well-formed Lz4 skippable frame. -/
def mkLz4Frame (payload : List Nat) : List Nat :=
  leBytes 4 SKIPPABLE_FRAME_MAGIC ++ leBytes 4 4 ++ leBytes 4 payload.length ++ payload

theorem take_append_exact (a b : List Nat) (n : Nat) (h : a.length = n) :
    (a ++ b).take n = a := by
  rw [List.take_append_eq_append_take, h, Nat.sub_self, List.take_zero,
    List.append_nil, ← h, List.take_length]

theorem drop_append_exact (a b : List Nat) (n : Nat) (h : a.length = n) :
    (a ++ b).drop n = b := by
  rw [List.drop_append_eq_append_drop, h, Nat.sub_self, List.drop_zero, ← h,
    List.drop_length, List.nil_append]

theorem drop_append_ge (a b : List Nat) (n : Nat) (h : a.length ≤ n) :
    (a ++ b).drop n = b.drop (n - a.length) := by
  rw [List.drop_append_eq_append_drop, List.drop_of_length_le h, List.nil_append]

theorem brotli_frame_fields (hint : Nat) (p t : List Nat) :
    (mkBrotliFrame hint p ++ t).take 4 = leBytes 4 SKIPPABLE_FRAME_MAGIC
    ∧ ((mkBrotliFrame hint p ++ t).drop 4).take 4 = leBytes 4 8
    ∧ ((mkBrotliFrame hint p ++ t).drop 8).take 4 = leBytes 4 p.length
    ∧ ((mkBrotliFrame hint p ++ t).drop 12).take 2 = leBytes 2 BROTLI_MAGIC
    ∧ (mkBrotliFrame hint p ++ t).drop 16 = p ++ t
    ∧ (mkBrotliFrame hint p ++ t).length = 16 + p.length + t.length := by
  have e : mkBrotliFrame hint p ++ t
      = leBytes 4 SKIPPABLE_FRAME_MAGIC ++ (leBytes 4 8 ++ (leBytes 4 p.length
        ++ (leBytes 2 BROTLI_MAGIC ++ (leBytes 2 hint ++ (p ++ t))))) := by
    simp [mkBrotliFrame, List.append_assoc]
  refine ⟨?_, ?_, ?_, ?_, ?_, ?_⟩
  · rw [e]
    exact take_append_exact _ _ 4 (leBytes_length 4 _)
  · rw [e, drop_append_exact _ _ 4 (leBytes_length 4 _)]
    exact take_append_exact _ _ 4 (leBytes_length 4 _)
  · rw [e, drop_append_ge _ _ 8 (by rw [leBytes_length]; omega)]
    rw [leBytes_length]
    norm_num
    rw [drop_append_exact _ _ 4 (leBytes_length 4 _)]
    exact take_append_exact _ _ 4 (leBytes_length 4 _)
  · rw [e, drop_append_ge _ _ 12 (by rw [leBytes_length]; omega)]
    rw [leBytes_length]
    norm_num
    rw [drop_append_ge _ _ 8 (by rw [leBytes_length]; omega)]
    rw [leBytes_length]
    norm_num
    rw [drop_append_exact _ _ 4 (leBytes_length 4 _)]
    exact take_append_exact _ _ 2 (leBytes_length 2 _)
  · rw [e, drop_append_ge _ _ 16 (by rw [leBytes_length]; omega)]
    rw [leBytes_length]
    norm_num
    rw [drop_append_ge _ _ 12 (by rw [leBytes_length]; omega)]
    rw [leBytes_length]
    norm_num
    rw [drop_append_ge _ _ 8 (by rw [leBytes_length]; omega)]
    rw [leBytes_length]
    norm_num
    rw [drop_append_ge _ _ 4 (by rw [leBytes_length]; omega)]
    rw [leBytes_length]
    norm_num
    exact drop_append_exact _ _ 2 (leBytes_length 2 _)
  · rw [e]
    simp [leBytes_length]
    omega

theorem lz4_frame_fields (p t : List Nat) :
    (mkLz4Frame p ++ t).take 4 = leBytes 4 SKIPPABLE_FRAME_MAGIC
    ∧ ((mkLz4Frame p ++ t).drop 4).take 4 = leBytes 4 4
    ∧ ((mkLz4Frame p ++ t).drop 8).take 4 = leBytes 4 p.length
    ∧ (mkLz4Frame p ++ t).drop 12 = p ++ t
    ∧ (mkLz4Frame p ++ t).length = 12 + p.length + t.length := by
  have e : mkLz4Frame p ++ t
      = leBytes 4 SKIPPABLE_FRAME_MAGIC ++ (leBytes 4 4 ++ (leBytes 4 p.length
        ++ (p ++ t))) := by
    simp [mkLz4Frame, List.append_assoc]
  refine ⟨?_, ?_, ?_, ?_, ?_⟩
  · rw [e]
    exact take_append_exact _ _ 4 (leBytes_length 4 _)
  · rw [e, drop_append_exact _ _ 4 (leBytes_length 4 _)]
    exact take_append_exact _ _ 4 (leBytes_length 4 _)
  · rw [e, drop_append_ge _ _ 8 (by rw [leBytes_length]; omega)]
    rw [leBytes_length]
    norm_num
    rw [drop_append_exact _ _ 4 (leBytes_length 4 _)]
    exact take_append_exact _ _ 4 (leBytes_length 4 _)
  · rw [e, drop_append_ge _ _ 12 (by rw [leBytes_length]; omega)]
    rw [leBytes_length]
    norm_num
    rw [drop_append_ge _ _ 8 (by rw [leBytes_length]; omega)]
    rw [leBytes_length]
    norm_num
    exact drop_append_exact _ _ 4 (leBytes_length 4 _)
  · rw [e]
    simp [leBytes_length]
    omega

/-- The framed-mode loop delivers exactly the payloads of a well-formed frame
concatenation (followed by EOF or non-magic trailing bytes) and terminates
cleanly. -/
theorem brotli_read_frames_concat (frames : List (List Nat × Nat)) :
    ∀ (p junk : List Nat),
      junk.length < 4 ∨ ofLeBytes (junk.take 4) ≠ SKIPPABLE_FRAME_MAGIC →
      (∀ f ∈ frames, 0 < f.1.length ∧ f.1.length < 2 ^ 32) →
      0 < p.length →
      brotli_read_frames p.length
          (p ++ ((frames.map (fun f => mkBrotliFrame f.2 f.1)).flatten ++ junk))
        = (p :: frames.map (fun f => f.1), false) := by
  induction frames with
  | nil =>
    intro p junk hjunk hf hp
    simp only [List.map_nil, List.flatten_nil, List.nil_append]
    conv_lhs => rw [brotli_read_frames]
    dsimp only
    rw [take_append_exact p junk p.length rfl, drop_append_exact p junk p.length rfl]
    rw [dif_neg (by omega), dif_neg (by simp)]
    by_cases hj4 : junk.length < 4
    · rw [if_pos hj4]
    · rw [if_neg hj4, if_pos (hjunk.resolve_left hj4)]
  | cons f fs ih =>
    intro p junk hjunk hf hp
    have hff := hf f (List.mem_cons_self f _)
    simp only [List.map_cons, List.flatten_cons, List.append_assoc]
    obtain ⟨h1, h2, h3, h4, h5, h6⟩ :=
      brotli_frame_fields f.2 f.1 ((fs.map (fun f => mkBrotliFrame f.2 f.1)).flatten ++ junk)
    conv_lhs => rw [brotli_read_frames]
    dsimp only
    rw [take_append_exact p _ p.length rfl, drop_append_exact p _ p.length rfl]
    rw [dif_neg (by omega), dif_neg (by simp)]
    rw [if_neg (by rw [h6]; omega)]
    rw [if_neg (by rw [h1, ofLeBytes_leBytes 4 SKIPPABLE_FRAME_MAGIC (by norm_num [SKIPPABLE_FRAME_MAGIC])]; simp)]
    rw [if_neg (by rw [h6]; omega)]
    rw [if_neg (by rw [h2, ofLeBytes_leBytes 4 8 (by norm_num)]; simp)]
    rw [if_neg (by rw [h6]; omega)]
    rw [if_neg (by rw [h6]; omega)]
    rw [if_neg (by rw [h4, ofLeBytes_leBytes 2 BROTLI_MAGIC (by norm_num [BROTLI_MAGIC])]; simp)]
    rw [if_neg (by rw [h6]; omega)]
    rw [h3, ofLeBytes_leBytes 4 f.1.length hff.2, h5]
    rw [ih f.1 junk hjunk (fun g hg => hf g (List.mem_cons_of_mem f hg)) hff.1]

theorem lz4_read_frames_concat (frames : List (List Nat)) :
    ∀ (p junk : List Nat),
      junk.length < 4 ∨ ofLeBytes (junk.take 4) ≠ SKIPPABLE_FRAME_MAGIC →
      (∀ f ∈ frames, 0 < f.length ∧ f.length < 2 ^ 32) →
      0 < p.length →
      lz4_read_frames p.length (p ++ ((frames.map mkLz4Frame).flatten ++ junk))
        = (p :: frames, false) := by
  induction frames with
  | nil =>
    intro p junk hjunk hf hp
    simp only [List.map_nil, List.flatten_nil, List.nil_append]
    conv_lhs => rw [lz4_read_frames]
    dsimp only
    rw [take_append_exact p junk p.length rfl, drop_append_exact p junk p.length rfl]
    rw [dif_neg (by omega), dif_neg (by simp)]
    by_cases hj4 : junk.length < 4
    · rw [if_pos hj4]
    · rw [if_neg hj4, if_pos (hjunk.resolve_left hj4)]
  | cons f fs ih =>
    intro p junk hjunk hf hp
    have hff := hf f (List.mem_cons_self f _)
    simp only [List.map_cons, List.flatten_cons, List.append_assoc]
    obtain ⟨h1, h2, h3, h4, h5⟩ :=
      lz4_frame_fields f ((fs.map mkLz4Frame).flatten ++ junk)
    conv_lhs => rw [lz4_read_frames]
    dsimp only
    rw [take_append_exact p _ p.length rfl, drop_append_exact p _ p.length rfl]
    rw [dif_neg (by omega), dif_neg (by simp)]
    rw [if_neg (by rw [h5]; omega)]
    rw [if_neg (by rw [h1, ofLeBytes_leBytes 4 SKIPPABLE_FRAME_MAGIC (by norm_num [SKIPPABLE_FRAME_MAGIC])]; simp)]
    rw [if_neg (by rw [h5]; omega)]
    rw [if_neg (by rw [h2, ofLeBytes_leBytes 4 4 (by norm_num)]; simp)]
    rw [if_neg (by rw [h5]; omega)]
    rw [h3, ofLeBytes_leBytes 4 f.length hff.2, h4]
    rw [ih f junk hjunk (fun g hg => hf g (List.mem_cons_of_mem f hg)) hff.1]

/-- C3: skippable-frame decoding for Brotli and Lz4.  If the first four bytes
are not the magic the decoder enters standard mode and the inner codec sees
the whole input (the peeked bytes are prepended back); on a concatenation of
well-formed skippable frames (optionally followed by trailing bytes that do
not start another frame) the decoder enters framed mode, hands each frame's
`comp_size`-byte payload to a fresh inner decoder, and terminates cleanly
after the last frame. -/
theorem skippable_frame_decoding (input junk : List Nat)
    (frames : List (List Nat × Nat)) (lzframes : List (List Nat)) :
    (4 ≤ input.length → ofLeBytes (input.take 4) ≠ SKIPPABLE_FRAME_MAGIC →
        brotli_decoder_new input = .standard input
        ∧ lz4_decoder_new input = .standard input)
    ∧ (frames ≠ [] →
        (∀ f ∈ frames, 0 < f.1.length ∧ f.1.length < 2 ^ 32) →
        junk.length < 4 ∨ ofLeBytes (junk.take 4) ≠ SKIPPABLE_FRAME_MAGIC →
        brotli_decoder_new ((frames.map (fun f => mkBrotliFrame f.2 f.1)).flatten ++ junk)
          = .framed (frames.map (fun f => f.1)) false)
    ∧ (lzframes ≠ [] →
        (∀ f ∈ lzframes, 0 < f.length ∧ f.length < 2 ^ 32) →
        junk.length < 4 ∨ ofLeBytes (junk.take 4) ≠ SKIPPABLE_FRAME_MAGIC →
        lz4_decoder_new ((lzframes.map mkLz4Frame).flatten ++ junk)
          = .framed lzframes false) := by
  refine ⟨?_, ?_, ?_⟩
  · intro h4 hm
    constructor
    · unfold brotli_decoder_new
      dsimp only
      have htt : (input.take 16).take 4 = input.take 4 := by
        rw [List.take_take]; norm_num
      rw [if_neg (by omega)]
      rw [if_neg (by
        intro hc
        rw [htt] at hc
        exact hm hc.1)]
      rw [List.take_append_drop]
    · unfold lz4_decoder_new
      dsimp only
      have htt : (input.take 12).take 4 = input.take 4 := by
        rw [List.take_take]; norm_num
      rw [if_neg (by omega)]
      rw [if_neg (by
        intro hc
        rw [htt] at hc
        exact hm hc.1)]
      rw [List.take_append_drop]
  · intro hne hfr hj
    cases frames with
    | nil => exact absurd rfl hne
    | cons f fs =>
      have hff := hfr f (List.mem_cons_self f _)
      simp only [List.map_cons, List.flatten_cons, List.append_assoc]
      obtain ⟨h1, h2, h3, h4, h5, h6⟩ := brotli_frame_fields f.2 f.1
        ((fs.map (fun f => mkBrotliFrame f.2 f.1)).flatten ++ junk)
      unfold brotli_decoder_new
      dsimp only
      set X := mkBrotliFrame f.2 f.1
        ++ ((fs.map (fun f => mkBrotliFrame f.2 f.1)).flatten ++ junk) with hX
      have hlen : 17 ≤ X.length := by rw [h6]; omega
      have htt : (X.take 16).take 4 = X.take 4 := by rw [List.take_take]; norm_num
      have hd4 : ((X.take 16).drop 4).take 4 = (X.drop 4).take 4 := by
        rw [List.drop_take, List.take_take]; norm_num
      have hd8 : ((X.take 16).drop 8).take 4 = (X.drop 8).take 4 := by
        rw [List.drop_take, List.take_take]; norm_num
      have hd12 : ((X.take 16).drop 12).take 2 = (X.drop 12).take 2 := by
        rw [List.drop_take, List.take_take]; norm_num
      rw [if_neg (by omega)]
      rw [if_pos ⟨by
          rw [htt, h1, ofLeBytes_leBytes 4 SKIPPABLE_FRAME_MAGIC
            (by norm_num [SKIPPABLE_FRAME_MAGIC])], by omega⟩]
      rw [if_neg (by rw [hd4, h2, ofLeBytes_leBytes 4 8 (by norm_num)]; simp)]
      rw [if_neg (by rw [hd12, h4, ofLeBytes_leBytes 2 BROTLI_MAGIC
        (by norm_num [BROTLI_MAGIC])]; simp)]
      rw [hd8, h3, ofLeBytes_leBytes 4 f.1.length hff.2, h5]
      rw [brotli_read_frames_concat fs f.1 junk hj
        (fun g hg => hfr g (List.mem_cons_of_mem f hg)) hff.1]
  · intro hne hfr hj
    cases lzframes with
    | nil => exact absurd rfl hne
    | cons f fs =>
      have hff := hfr f (List.mem_cons_self f _)
      simp only [List.map_cons, List.flatten_cons, List.append_assoc]
      obtain ⟨h1, h2, h3, h4, h5⟩ := lz4_frame_fields f ((fs.map mkLz4Frame).flatten ++ junk)
      unfold lz4_decoder_new
      dsimp only
      set X := mkLz4Frame f ++ ((fs.map mkLz4Frame).flatten ++ junk) with hX
      have hlen : 13 ≤ X.length := by rw [h5]; omega
      have htt : (X.take 12).take 4 = X.take 4 := by rw [List.take_take]; norm_num
      have hd4 : ((X.take 12).drop 4).take 4 = (X.drop 4).take 4 := by
        rw [List.drop_take, List.take_take]; norm_num
      have hd8 : ((X.take 12).drop 8).take 4 = (X.drop 8).take 4 := by
        rw [List.drop_take, List.take_take]; norm_num
      rw [if_neg (by omega)]
      rw [if_pos ⟨by
          rw [htt, h1, ofLeBytes_leBytes 4 SKIPPABLE_FRAME_MAGIC
            (by norm_num [SKIPPABLE_FRAME_MAGIC])], by omega⟩]
      rw [if_neg (by rw [hd4, h2, ofLeBytes_leBytes 4 4 (by norm_num)]; simp)]
      rw [hd8, h3, ofLeBytes_leBytes 4 f.length hff.2, h4]
      rw [lz4_read_frames_concat fs f junk hj
        (fun g hg => hfr g (List.mem_cons_of_mem f hg)) hff.1]

/-- Witness for `skippable_frame_decoding`: a 4-byte non-magic stream decodes
in standard mode; a 2-frame Brotli stream and a 1-frame Lz4 stream decode to
their payloads. -/
theorem skippable_frame_decoding_witness :
    (brotli_decoder_new [1, 2, 3, 4] = .standard [1, 2, 3, 4]
      ∧ lz4_decoder_new [1, 2, 3, 4] = .standard [1, 2, 3, 4])
    ∧ brotli_decoder_new
        (([([9], 1), ([7, 8], 0)].map (fun f => mkBrotliFrame f.2 f.1)).flatten ++ [])
        = .framed [[9], [7, 8]] false
    ∧ lz4_decoder_new (([[5, 6]].map mkLz4Frame).flatten ++ [])
        = .framed [[5, 6]] false :=
  ⟨(skippable_frame_decoding [1, 2, 3, 4] [] [([9], 1), ([7, 8], 0)] [[5, 6]]).1
      (by decide) (by decide),
   (skippable_frame_decoding [1, 2, 3, 4] [] [([9], 1), ([7, 8], 0)] [[5, 6]]).2.1
      (by decide) (by decide) (by decide),
   (skippable_frame_decoding [1, 2, 3, 4] [] [([9], 1), ([7, 8], 0)] [[5, 6]]).2.2
      (by decide) (by decide) (by decide)⟩

/-- The hint computation of `build_frame_bytes`:
`uncompressed_bytes.div_ceil(HINT_UNIT_SIZE)` saturated at `u16::MAX`. -/
def brotli_hint (uncompressed : Nat) : Nat :=
  let hint_value := (uncompressed + 65536 - 1) / 65536
  if hint_value > 0xFFFF then 0xFFFF else hint_value

/-- `BrotliEncoder::build_frame_bytes` (`src/src/codec/brotli.rs:306-324`):
empty compressed data yields no frame; otherwise magic, `skip_size = 8`,
compressed length, Brotli magic, hint, payload — all little-endian. -/
def build_frame_bytes (compressed : List Nat) (uncompressed : Nat) : List Nat :=
  if compressed = [] then []
  else
    leBytes 4 SKIPPABLE_FRAME_MAGIC ++ leBytes 4 8 ++ leBytes 4 compressed.length
      ++ leBytes 2 BROTLI_MAGIC ++ leBytes 2 (brotli_hint uncompressed) ++ compressed

/-- Framed-mode writer state: the uncompressed bytes accumulated in the
current frame (the per-frame compressor is applied at frame close) and the
bytes written so far (`pending_frames` drain in order to a fully accepting
sink). -/
structure BrEncSt where
  fb : List Nat
  out : List Nat

/-- Closing the current frame: finalize the per-frame compressor on the
accumulated bytes and append the built frame. -/
def brotli_close_frame (comp : List Nat → List Nat) (st : BrEncSt) : BrEncSt :=
  ⟨[], st.out ++ build_frame_bytes (comp st.fb) st.fb.length⟩

/-- The framed branch of `BrotliEncoder::poll_write`, iterated until the
whole chunk is consumed: accept `min (remaining, frame_size - fb)` bytes into
the current frame and close it once it reaches `frame_size`.  The
`to_write == 0` branch of the source is unreachable because a full frame is
always closed in the same call; the state invariant `fb < frame_size` makes
that explicit. -/
def brotli_enc_write (comp : List Nat → List Nat) (fs : Nat) (hfs : 0 < fs)
    (data : List Nat) (st : BrEncSt) (hfb : st.fb.length < fs) : BrEncSt :=
  if hd : data = [] then st
  else
    let tw := min data.length (fs - st.fb.length)
    let st1 : BrEncSt := ⟨st.fb ++ data.take tw, st.out⟩
    if hc : fs ≤ st1.fb.length then
      brotli_enc_write comp fs hfs (data.drop tw) (brotli_close_frame comp st1)
        (by simpa [brotli_close_frame] using hfs)
    else
      brotli_enc_write comp fs hfs (data.drop tw) st1 (Nat.not_le.mp hc)
termination_by data.length
decreasing_by
  all_goals
    have hdp : 0 < data.length := List.length_pos.mpr hd
    simp only [List.length_drop]
    omega

theorem brotli_enc_write_nil (comp : List Nat → List Nat) (fs : Nat) (hfs : 0 < fs)
    (st : BrEncSt) (hfb : st.fb.length < fs) :
    brotli_enc_write comp fs hfs [] st hfb = st := by
  rw [brotli_enc_write]
  exact dif_pos rfl

theorem brotli_enc_write_congr (comp : List Nat → List Nat) (fs : Nat) (hfs : 0 < fs)
    (d1 d2 : List Nat) (s1 s2 : BrEncSt) (hd : d1 = d2) (hs : s1 = s2)
    (h1 : s1.fb.length < fs) (h2 : s2.fb.length < fs) :
    brotli_enc_write comp fs hfs d1 s1 h1 = brotli_enc_write comp fs hfs d2 s2 h2 := by
  subst hd
  subst hs
  rfl

theorem brotli_enc_write_step_close (comp : List Nat → List Nat) (fs : Nat) (hfs : 0 < fs)
    (data : List Nat) (st : BrEncSt) (hfb : st.fb.length < fs) (hd : data ≠ [])
    (hc : fs ≤ (st.fb ++ data.take (min data.length (fs - st.fb.length))).length) :
    brotli_enc_write comp fs hfs data st hfb
      = brotli_enc_write comp fs hfs (data.drop (min data.length (fs - st.fb.length)))
          ⟨[], st.out ++ build_frame_bytes
              (comp (st.fb ++ data.take (min data.length (fs - st.fb.length))))
              (st.fb ++ data.take (min data.length (fs - st.fb.length))).length⟩
          (by simpa using hfs) := by
  conv_lhs => rw [brotli_enc_write]
  rw [dif_neg hd]
  dsimp only
  rw [dif_pos hc]
  rfl

theorem brotli_enc_write_step_open (comp : List Nat → List Nat) (fs : Nat) (hfs : 0 < fs)
    (data : List Nat) (st : BrEncSt) (hfb : st.fb.length < fs) (hd : data ≠ [])
    (hc : ¬ fs ≤ (st.fb ++ data.take (min data.length (fs - st.fb.length))).length)
    (h2 : (⟨st.fb ++ data.take (min data.length (fs - st.fb.length)), st.out⟩
        : BrEncSt).fb.length < fs) :
    brotli_enc_write comp fs hfs data st hfb
      = brotli_enc_write comp fs hfs (data.drop (min data.length (fs - st.fb.length)))
          ⟨st.fb ++ data.take (min data.length (fs - st.fb.length)), st.out⟩ h2 := by
  conv_lhs => rw [brotli_enc_write]
  rw [dif_neg hd]
  dsimp only
  rw [dif_neg hc]

/-- The state invariant: after any `poll_write`, the current frame holds
fewer than `frame_size` bytes. -/
theorem brotli_enc_write_fb (comp : List Nat → List Nat) (fs : Nat) (hfs : 0 < fs) :
    ∀ (n : Nat) (data : List Nat), data.length ≤ n → ∀ (st : BrEncSt) (hfb : st.fb.length < fs),
      (brotli_enc_write comp fs hfs data st hfb).fb.length < fs := by
  intro n
  induction n with
  | zero =>
    intro data hn st hfb
    have hde : data = [] := List.eq_nil_of_length_eq_zero (by omega)
    subst hde
    rw [brotli_enc_write_nil]
    exact hfb
  | succ n ih =>
    intro data hn st hfb
    by_cases hd : data = []
    · subst hd
      rw [brotli_enc_write_nil]
      exact hfb
    · have hdp : 0 < data.length := List.length_pos.mpr hd
      have htw : 0 < min data.length (fs - st.fb.length) := by omega
      by_cases hc : fs ≤ (st.fb ++ data.take (min data.length (fs - st.fb.length))).length
      · rw [brotli_enc_write_step_close comp fs hfs data st hfb hd hc]
        exact ih _ (by simp only [List.length_drop]; omega) _ _
      · rw [brotli_enc_write_step_open comp fs hfs data st hfb hd hc (Nat.not_le.mp hc)]
        exact ih _ (by simp only [List.length_drop]; omega) _ _

/-- Folding `poll_write` over a chunk sequence, threading the invariant. -/
def brotli_enc_fold (comp : List Nat → List Nat) (fs : Nat) (hfs : 0 < fs) :
    (cs : List (List Nat)) → (st : BrEncSt) → st.fb.length < fs → BrEncSt
  | [], st, _ => st
  | c :: cs, st, h =>
    brotli_enc_fold comp fs hfs cs (brotli_enc_write comp fs hfs c st h)
      (brotli_enc_write_fb comp fs hfs c.length c (le_refl _) st h)

/-- `poll_close`: close the final partial frame if non-empty and drain. -/
def brotli_enc_close (comp : List Nat → List Nat) (st : BrEncSt) : List Nat :=
  if 0 < st.fb.length then (brotli_close_frame comp st).out else st.out

/-- The complete framed-mode encoder session over a chunk sequence. -/
def brotli_encode_framed (comp : List Nat → List Nat) (fs : Nat) (hfs : 0 < fs)
    (cs : List (List Nat)) : List Nat :=
  brotli_enc_close comp (brotli_enc_fold comp fs hfs cs ⟨[], []⟩ (by simpa using hfs))

/-- Canonical form of the framed writer: greedily close one frame per
complete `frame_size`-byte chunk of the accumulated stream. -/
def brotli_process (comp : List Nat → List Nat) (fs : Nat) (hfs : 0 < fs)
    (data out : List Nat) : BrEncSt :=
  if data.length < fs then ⟨data, out⟩
  else
    brotli_process comp fs hfs (data.drop fs)
      (out ++ build_frame_bytes (comp (data.take fs)) (data.take fs).length)
termination_by data.length
decreasing_by
  simp only [List.length_drop]
  omega

theorem brotli_process_small (comp : List Nat → List Nat) (fs : Nat) (hfs : 0 < fs)
    (data out : List Nat) (h : data.length < fs) :
    brotli_process comp fs hfs data out = ⟨data, out⟩ := by
  rw [brotli_process]
  exact if_pos h

theorem brotli_process_large (comp : List Nat → List Nat) (fs : Nat) (hfs : 0 < fs)
    (data out : List Nat) (h : ¬ data.length < fs) :
    brotli_process comp fs hfs data out
      = brotli_process comp fs hfs (data.drop fs)
          (out ++ build_frame_bytes (comp (data.take fs)) (data.take fs).length) := by
  conv_lhs => rw [brotli_process]
  rw [if_neg h]

theorem brotli_process_fb (comp : List Nat → List Nat) (fs : Nat) (hfs : 0 < fs) :
    ∀ (n : Nat) (data : List Nat), data.length ≤ n → ∀ out,
      (brotli_process comp fs hfs data out).fb.length < fs := by
  intro n
  induction n with
  | zero =>
    intro data hn out
    have hde : data = [] := List.eq_nil_of_length_eq_zero (by omega)
    subst hde
    rw [brotli_process_small comp fs hfs [] out (by simpa using hfs)]
    simpa using hfs
  | succ n ih =>
    intro data hn out
    by_cases h : data.length < fs
    · rw [brotli_process_small comp fs hfs data out h]
      exact h
    · rw [brotli_process_large comp fs hfs data out h]
      exact ih _ (by simp only [List.length_drop]; omega) _

/-- One `poll_write` from any reachable state equals the canonical processor
on `fb ++ data`. -/
theorem brotli_enc_write_eq (comp : List Nat → List Nat) (fs : Nat) (hfs : 0 < fs) :
    ∀ (n : Nat) (data : List Nat), data.length ≤ n →
      ∀ (fb out : List Nat) (hfb : (⟨fb, out⟩ : BrEncSt).fb.length < fs),
      brotli_enc_write comp fs hfs data ⟨fb, out⟩ hfb
        = brotli_process comp fs hfs (fb ++ data) out := by
  intro n
  induction n with
  | zero =>
    intro data hn fb out hfb
    have hde : data = [] := List.eq_nil_of_length_eq_zero (by omega)
    subst hde
    rw [brotli_enc_write_nil, List.append_nil,
      brotli_process_small comp fs hfs fb out hfb]
  | succ n ih =>
    intro data hn fb out hfb
    by_cases hd : data = []
    · subst hd
      rw [brotli_enc_write_nil, List.append_nil,
        brotli_process_small comp fs hfs fb out hfb]
    · have hdp : 0 < data.length := List.length_pos.mpr hd
      have hfb' : fb.length < fs := hfb
      by_cases hbig : fs - fb.length ≤ data.length
      · have htw : min data.length (fs - fb.length) = fs - fb.length :=
          min_eq_right hbig
        have hlen1 : (fb ++ data.take (fs - fb.length)).length = fs := by
          rw [List.length_append, List.length_take]
          omega
        have hc : fs ≤ ((⟨fb, out⟩ : BrEncSt).fb ++ data.take
            (min data.length (fs - (⟨fb, out⟩ : BrEncSt).fb.length))).length := by
          dsimp only
          rw [htw, hlen1]
        rw [brotli_enc_write_step_close comp fs hfs data ⟨fb, out⟩ hfb hd hc]
        dsimp only
        rw [htw]
        rw [ih (data.drop (fs - fb.length)) (by simp only [List.length_drop]; omega)]
        rw [List.nil_append]
        rw [brotli_process_large comp fs hfs (fb ++ data) out
          (by rw [List.length_append]; omega)]
        have ht : (fb ++ data).take fs = fb ++ data.take (fs - fb.length) := by
          rw [List.take_append_eq_append_take, List.take_of_length_le (le_of_lt hfb')]
        have hdr : (fb ++ data).drop fs = data.drop (fs - fb.length) := by
          rw [List.drop_append_eq_append_drop, List.drop_of_length_le (le_of_lt hfb'),
            List.nil_append]
        rw [ht, hdr]
      · have htw : min data.length (fs - fb.length) = data.length :=
          min_eq_left (by omega)
        have hcn : ¬ fs ≤ ((⟨fb, out⟩ : BrEncSt).fb ++ data.take
            (min data.length (fs - (⟨fb, out⟩ : BrEncSt).fb.length))).length := by
          dsimp only
          rw [htw, List.take_length, List.length_append]
          omega
        rw [brotli_enc_write_step_open comp fs hfs data ⟨fb, out⟩ hfb hd hcn
          (Nat.not_le.mp hcn)]
        refine Eq.trans (brotli_enc_write_congr comp fs hfs
          (List.drop (min data.length (fs - fb.length)) data) []
          ⟨fb ++ List.take (min data.length (fs - fb.length)) data, out⟩ ⟨fb ++ data, out⟩
          (by rw [htw, List.drop_length]) (by rw [htw, List.take_length])
          (Nat.not_le.mp hcn) (by dsimp only; rw [List.length_append]; omega)) ?_
        rw [brotli_enc_write_nil]
        rw [brotli_process_small comp fs hfs (fb ++ data) out
          (by rw [List.length_append]; omega)]

/-- Canonical-processor composition across an append. -/
theorem brotli_process_append (comp : List Nat → List Nat) (fs : Nat) (hfs : 0 < fs) :
    ∀ (n : Nat) (p : List Nat), p.length ≤ n → ∀ (c out : List Nat),
      brotli_process comp fs hfs (p ++ c) out
        = brotli_process comp fs hfs ((brotli_process comp fs hfs p out).fb ++ c)
            ((brotli_process comp fs hfs p out).out) := by
  intro n
  induction n with
  | zero =>
    intro p hn c out
    have hpe : p = [] := List.eq_nil_of_length_eq_zero (by omega)
    subst hpe
    rw [brotli_process_small comp fs hfs [] out (by simpa using hfs)]
  | succ n ih =>
    intro p hn c out
    by_cases h : p.length < fs
    · rw [brotli_process_small comp fs hfs p out h]
    · have ht : (p ++ c).take fs = p.take fs := by
        rw [List.take_append_eq_append_take, Nat.sub_eq_zero_of_le (by omega)]
        simp
      have hdr : (p ++ c).drop fs = p.drop fs ++ c := by
        rw [List.drop_append_eq_append_drop, Nat.sub_eq_zero_of_le (by omega)]
        simp
      rw [brotli_process_large comp fs hfs (p ++ c) out (by simp; omega), ht, hdr,
        ih (p.drop fs) (by simp only [List.length_drop]; omega),
        brotli_process_large comp fs hfs p out h]

/-- The writer fold over chunks equals the canonical processor on the
flattened stream. -/
theorem brotli_enc_fold_eq (comp : List Nat → List Nat) (fs : Nat) (hfs : 0 < fs) :
    ∀ (cs : List (List Nat)) (p out : List Nat)
      (h : (brotli_process comp fs hfs p out).fb.length < fs),
      brotli_enc_fold comp fs hfs cs (brotli_process comp fs hfs p out) h
        = brotli_process comp fs hfs (p ++ cs.flatten) out := by
  intro cs
  induction cs with
  | nil =>
    intro p out h
    rw [brotli_enc_fold, List.flatten_nil, List.append_nil]
  | cons c cs ih =>
    intro p out h
    rw [brotli_enc_fold]
    have hwr : brotli_enc_write comp fs hfs c (brotli_process comp fs hfs p out) h
        = brotli_process comp fs hfs (p ++ c) out := by
      have he : brotli_process comp fs hfs p out
          = ⟨(brotli_process comp fs hfs p out).fb,
             (brotli_process comp fs hfs p out).out⟩ := rfl
      rw [show brotli_enc_write comp fs hfs c (brotli_process comp fs hfs p out) h
          = brotli_enc_write comp fs hfs c ⟨(brotli_process comp fs hfs p out).fb,
              (brotli_process comp fs hfs p out).out⟩ h from rfl]
      rw [brotli_enc_write_eq comp fs hfs c.length c (le_refl _) _ _ h]
      rw [← brotli_process_append comp fs hfs p.length p (le_refl _) c out]
    have hnext := brotli_enc_write_fb comp fs hfs c.length c (le_refl _)
      (brotli_process comp fs hfs p out) h
    rw [show brotli_enc_fold comp fs hfs cs
        (brotli_enc_write comp fs hfs c (brotli_process comp fs hfs p out) h) hnext
      = brotli_enc_fold comp fs hfs cs (brotli_process comp fs hfs (p ++ c) out)
          (hwr ▸ hnext) from by congr 1]
    rw [ih (p ++ c) out (hwr ▸ hnext), List.flatten_cons, List.append_assoc]

theorem brotli_enc_fold_congr (comp : List Nat → List Nat) (fs : Nat) (hfs : 0 < fs)
    (cs : List (List Nat)) (s1 s2 : BrEncSt) (h1 : s1.fb.length < fs)
    (h2 : s2.fb.length < fs) (hs : s1 = s2) :
    brotli_enc_fold comp fs hfs cs s1 h1 = brotli_enc_fold comp fs hfs cs s2 h2 := by
  subst hs
  rfl

/-- Closing the canonical processor emits one complete frame per
`frame_size`-chunk of the accumulated stream. -/
theorem brotli_close_process (comp : List Nat → List Nat) (fs : Nat) (hfs : 0 < fs) :
    ∀ (n : Nat) (p : List Nat), p.length ≤ n → ∀ out,
      brotli_enc_close comp (brotli_process comp fs hfs p out)
        = out ++ ((chunksN fs hfs p).map
            (fun c => build_frame_bytes (comp c) c.length)).flatten := by
  intro n
  induction n with
  | zero =>
    intro p hn out
    have hpe : p = [] := List.eq_nil_of_length_eq_zero (by omega)
    subst hpe
    rw [brotli_process_small comp fs hfs [] out (by simpa using hfs), chunksN_nil]
    simp [brotli_enc_close]
  | succ n ih =>
    intro p hn out
    by_cases hpe : p = []
    · subst hpe
      rw [brotli_process_small comp fs hfs [] out (by simpa using hfs), chunksN_nil]
      simp [brotli_enc_close]
    · by_cases h : p.length < fs
      · rw [brotli_process_small comp fs hfs p out h,
          chunksN_cons fs hfs p hpe, List.take_of_length_le (by omega),
          List.drop_of_length_le (by omega), chunksN_nil]
        rw [brotli_enc_close, if_pos (by simpa using List.length_pos.mpr hpe)]
        simp [brotli_close_frame]
      · rw [brotli_process_large comp fs hfs p out h,
          ih (p.drop fs) (by simp only [List.length_drop]; omega),
          chunksN_cons fs hfs p hpe]
        simp [List.append_assoc]

theorem chunksN_ne_nil (n : Nat) (hn : 0 < n) :
    ∀ (m : Nat) (l : List Nat), l.length ≤ m → ∀ c ∈ chunksN n hn l, c ≠ [] := by
  intro m
  induction m with
  | zero =>
    intro l hm c hc
    have hle : l = [] := List.eq_nil_of_length_eq_zero (by omega)
    subst hle
    rw [chunksN_nil] at hc
    cases hc
  | succ m ih =>
    intro l hm c hc
    by_cases hle : l = []
    · subst hle
      rw [chunksN_nil] at hc
      cases hc
    · rw [chunksN_cons n hn l hle] at hc
      rcases List.mem_cons.mp hc with h | h
      · subst h
        rw [Ne, List.take_eq_nil_iff]
        push_neg
        exact ⟨by omega, hle⟩
      · exact ih (l.drop n) (by simp only [List.length_drop]; omega) c h

/-- C8: the framed Brotli encoder's output is exactly the concatenation of
one complete skippable frame per `frame_size`-chunk of the uncompressed
stream, each frame being magic ++ 8 ++ compressed length ++ 0x5242 ++
saturated `ceil(uncompressed/65536)` hint ++ payload (all little-endian). -/
theorem brotli_encoder_frames (comp : List Nat → List Nat) (fs : Nat) (hfs : 0 < fs)
    (cs : List (List Nat)) (hcomp : ∀ c, c ≠ [] → comp c ≠ []) :
    brotli_encode_framed comp fs hfs cs
      = ((chunksN fs hfs cs.flatten).map
          (fun c => build_frame_bytes (comp c) c.length)).flatten
    ∧ ∀ c ∈ chunksN fs hfs cs.flatten,
        build_frame_bytes (comp c) c.length
          = leBytes 4 SKIPPABLE_FRAME_MAGIC ++ leBytes 4 8 ++ leBytes 4 (comp c).length
            ++ leBytes 2 BROTLI_MAGIC
            ++ leBytes 2 (min ((c.length + 65535) / 65536) 65535) ++ comp c := by
  constructor
  · unfold brotli_encode_framed
    have h0 : (⟨[], []⟩ : BrEncSt) = brotli_process comp fs hfs [] [] := by
      rw [brotli_process_small comp fs hfs [] [] (by simpa using hfs)]
    have hstep : brotli_enc_fold comp fs hfs cs ⟨[], []⟩ (by simpa using hfs)
        = brotli_process comp fs hfs cs.flatten [] := by
      refine Eq.trans (brotli_enc_fold_congr comp fs hfs cs ⟨[], []⟩
        (brotli_process comp fs hfs [] []) (by simpa using hfs)
        (brotli_process_fb comp fs hfs 0 [] (le_refl _) []) h0) ?_
      rw [brotli_enc_fold_eq comp fs hfs cs [] [], List.nil_append]
    refine Eq.trans (congrArg (brotli_enc_close comp) hstep) ?_
    rw [brotli_close_process comp fs hfs cs.flatten.length cs.flatten (le_refl _) [],
      List.nil_append]
  · intro c hc
    have hcne : c ≠ [] :=
      chunksN_ne_nil fs hfs cs.flatten.length cs.flatten (le_refl _) c hc
    rw [build_frame_bytes, if_neg (hcomp c hcne)]
    have hh : brotli_hint c.length = min ((c.length + 65535) / 65536) 65535 := by
      unfold brotli_hint
      dsimp only
      split_ifs with h <;> omega
    rw [hh]

/-- Witness for `brotli_encoder_frames`: identity compressor, frame size 4,
a single 5-byte write producing two frames. -/
theorem brotli_encoder_frames_witness :
    brotli_encode_framed (fun c => c) 4 (by norm_num) [[1, 2, 3, 4, 5]]
      = ((chunksN 4 (by norm_num) [[1, 2, 3, 4, 5]].flatten).map
          (fun c => build_frame_bytes ((fun c => c) c) c.length)).flatten :=
  (brotli_encoder_frames (fun c => c) 4 (by norm_num) [[1, 2, 3, 4, 5]]
    (fun _ h => h)).1

end SevenZ
